import Mathlib

/-!
Gift exchange: the assignment generator, the validator and the retry loop

A shallow embedding of `src/main.cpp` (class `assigner`).

* `std::string` is a Lean `String`, ordered lexicographically (`string_less`).
* `std::map<std::string, T>` is the list of its `(key, value)` entries in
  iteration order, that is in ascending key order; `std::set<std::string>` is the
  list of its elements in ascending order.  The container invariant (strictly
  ascending keys) is the predicate `map_wf` / `set_wf`; the operations below do
  not assume it, the theorems that need it take it as a hypothesis.
* `int` is an `Int` in the range `is_int`; `size_t` is a `Nat` below `2 ^ 64`.
* Undefined behaviour (dereferencing `persons.end()`, `back()` on an empty
  vector) is an explicit result: `none`, or `verdict.undefined`.
-/

namespace GiftExchange

/-! ## Strings and containers -/

/-- Lexicographic comparison of two character sequences, the order of
`std::string::operator<`. -/
def chars_less : List Char → List Char → Bool
  | _, [] => false
  | [], _ :: _ => true
  | c :: cs, d :: ds =>
    if c.toNat < d.toNat then true
    else if d.toNat < c.toNat then false
    else chars_less cs ds

/-- The key order of the maps and sets of names: `std::less<std::string>`. -/
def string_less (a b : String) : Bool := chars_less a.data b.data

/-- The invariant of a `std::set<std::string>`: elements strictly ascending. -/
def set_wf (s : List String) : Prop := s.Pairwise (fun x y => string_less x y = true)

/-- The invariant of a `std::map<std::string, T>`: keys strictly ascending. -/
def map_wf {β : Type} (m : List (String × β)) : Prop := set_wf (m.map Prod.fst)

instance set_wf_decidable (s : List String) : Decidable (set_wf s) := by
  unfold set_wf
  infer_instance

instance map_wf_decidable {β : Type} (m : List (String × β)) : Decidable (map_wf m) := by
  unfold map_wf
  infer_instance

/-- The lookup `map.find(key)`: `none` stands for `map.end()`. -/
def map_find {β : Type} : List (String × β) → String → Option β
  | [], _ => none
  | (k, v) :: rest, key => if k = key then some v else map_find rest key

/-- The template `map_get_or_default` of the source. -/
def map_get_or_default {β : Type} (map : List (String × β)) (key : String) (defaultValue : β) : β :=
  match map_find map key with
  | none => defaultValue
  | some second => second

/-- The insertion `set.insert(x)` of `std::set<std::string>`. -/
def set_insert : List String → String → List String
  | [], x => [x]
  | y :: ys, x =>
    if y = x then y :: ys
    else if string_less x y then x :: y :: ys
    else y :: set_insert ys x

/-- The statement `map[key].insert(x)` on a map of sets: `operator[]` creates an
empty set for a missing key, then the element is inserted. -/
def map_insert_into : List (String × List String) → String → String → List (String × List String)
  | [], key, x => [(key, set_insert [] x)]
  | (k, s) :: rest, key, x =>
    if k = key then (k, set_insert s x) :: rest
    else if string_less key k then (key, set_insert [] x) :: (k, s) :: rest
    else (k, s) :: map_insert_into rest key x

/-- Every value of a map of sets is a well-formed set. -/
def sets_wf (a : List (String × List String)) : Prop := ∀ e ∈ a, set_wf e.2

/-! ## The data model -/

/-- The type `family_id` of the source, an `int`. -/
abbrev family_id := Int

/-- The struct `person`. -/
structure person where
  name : String
  participation : Int
  family : family_id
deriving DecidableEq, Repr

/-- The typedef `assignments`: giver name to set of recipient names. -/
abbrev assignments := List (String × List String)

/-- The member `persons`: name to person record. -/
abbrev person_map := List (String × person)

/-- The values of the C++ type `int` (32 bits). -/
def is_int (i : Int) : Prop := -2 ^ 31 ≤ i ∧ i < 2 ^ 31

instance is_int_decidable (i : Int) : Decidable (is_int i) := by
  unfold is_int
  infer_instance

/-- The conversion of an `int` to `size_t` (64 bits) that the comparison
`target_names.size() != source.participation` performs on its right operand. -/
def int_to_size_t (i : Int) : Nat := (i % 2 ^ 64).toNat

/-! ## The validator `assigner::is_valid` -/

/-- How a loop of `is_valid` ends. -/
inductive verdict where
  /-- The lookup `persons.find(target_name)` missed and `end()` was dereferenced. -/
  | undefined : verdict
  /-- One of the `return false` statements was reached. -/
  | rejected : verdict
  /-- The loop ran to its end; the payload is `family_assignments`. -/
  | passed : List (family_id × family_id) → verdict
deriving DecidableEq, Repr

/-- The inner loop of `is_valid` (lines 135-154) over the recipients of one giver.
`family_assignments` is only ever searched and extended, so it is kept as the
list of the inserted pairs. -/
def check_targets (persons : person_map) (assignments : assignments)
    (source_name : String) (source : person) (forbidden_names : List String) :
    List String → List (family_id × family_id) → verdict
  | [], family_assignments => verdict.passed family_assignments
  | target_name :: rest, family_assignments =>
    match map_find persons target_name with
    | none => verdict.undefined
    | some target =>
      if target_name ∈ forbidden_names then verdict.rejected
      else if target.family = source.family then verdict.rejected
      else if source_name ∈ map_get_or_default assignments target_name [] then verdict.rejected
      else if (source.family, target.family) ∈ family_assignments then verdict.rejected
      else check_targets persons assignments source_name source forbidden_names rest
        ((source.family, target.family) :: family_assignments)

/-- The outer loop of `is_valid` (lines 125-155) over the entries of `persons`
that are still to be visited. -/
def check_persons (persons : person_map) (forbidden_assignments : assignments)
    (assignments : assignments) :
    List (String × person) → List (family_id × family_id) → verdict
  | [], family_assignments => verdict.passed family_assignments
  | (source_name, source) :: rest, family_assignments =>
    let forbidden_names := map_get_or_default forbidden_assignments source_name []
    let target_names := map_get_or_default assignments source_name []
    if target_names.length ≠ int_to_size_t source.participation then verdict.rejected
    else
      match check_targets persons assignments source_name source forbidden_names
          target_names family_assignments with
      | verdict.passed family_assignments' =>
        check_persons persons forbidden_assignments assignments rest family_assignments'
      | verdict.rejected => verdict.rejected
      | verdict.undefined => verdict.undefined

/-- The method `assigner::is_valid`: `some b` when it returns `b`, `none` when its
behaviour is undefined. -/
def is_valid (persons : person_map) (forbidden_assignments : assignments)
    (assignments : assignments) : Option Bool :=
  match check_persons persons forbidden_assignments assignments persons [] with
  | verdict.passed _ => some true
  | verdict.rejected => some false
  | verdict.undefined => none

/-! ## The generator `assigner::generate_assignments` -/

/-- The inner loop of lines 100-103: `count` times `targets.push_back(name)`. -/
def push_slots (name : String) : Nat → List String → List String
  | 0, targets => targets
  | count + 1, targets => push_slots name count (targets ++ [name])

/-- The loop of lines 98-104 over the entries of `persons`: the body of
`for (auto i = 0; i < participation; ++i)` runs `participation.toNat` times. -/
def fill_targets : List (String × person) → List String → List String
  | [], targets => targets
  | (name, p) :: rest, targets =>
    fill_targets rest (push_slots name p.participation.toNat targets)

/-- The inner loop of lines 111-115: `count` times
`assignments[name].insert(targets.back()); targets.pop_back();`.  The result is
`none` when `targets.back()` is applied to an empty vector. -/
def pop_slots (name : String) :
    Nat → assignments × List String → Option (assignments × List String)
  | 0, state => some state
  | count + 1, (assignments, targets) =>
    match targets.getLast? with
    | none => none
    | some back =>
      pop_slots name count (map_insert_into assignments name back, targets.dropLast)

/-- The loop of lines 109-116 over the entries of `persons`. -/
def assign_targets :
    List (String × person) → assignments × List String → Option (assignments × List String)
  | [], state => some state
  | (name, p) :: rest, state =>
    match pop_slots name p.participation.toNat state with
    | none => none
    | some state' => assign_targets rest state'

/-- The method `assigner::generate_assignments`.  The argument `shuffle` is the
outcome of the call of `std::shuffle`: the rearrangement it applies to the slot
vector. -/
def generate_assignments (persons : person_map) (shuffle : List String → List String) :
    Option assignments :=
  match assign_targets persons ([], shuffle (fill_targets persons [])) with
  | none => none
  | some (assignments, _) => some assignments

/-! ## The retry loop `assigner::generate_valid_assignments` -/

/-- What is known of a run of the retry loop after a number of iterations. -/
inductive run_result where
  /-- The `return assignments;` statement was reached. -/
  | returned : assignments → run_result
  /-- The behaviour of an iteration was undefined. -/
  | undefined : run_result
  /-- Every iteration so far rejected its candidate; the loop goes on. -/
  | running : run_result
deriving DecidableEq, Repr

/-- The loop `while (true)` of lines 66-71, run for at most `fuel` iterations from
iteration `k` on; iteration `k` shuffles with `draws k`. -/
def retry_loop (persons : person_map) (forbidden_assignments : assignments)
    (draws : Nat → List String → List String) : Nat → Nat → run_result
  | 0, _ => run_result.running
  | fuel + 1, k =>
    match generate_assignments persons (draws k) with
    | none => run_result.undefined
    | some assignments =>
      match is_valid persons forbidden_assignments assignments with
      | none => run_result.undefined
      | some true => run_result.returned assignments
      | some false => retry_loop persons forbidden_assignments draws fuel (k + 1)

/-- The method `assigner::generate_valid_assignments`, observed for `fuel`
iterations of its loop. -/
def generate_valid_assignments (persons : person_map) (forbidden_assignments : assignments)
    (draws : Nat → List String → List String) (fuel : Nat) : run_result :=
  retry_loop persons forbidden_assignments draws fuel 0

/-! ## Scenario data -/

/-- The registry of scenario A: A1, A2 in family 0 and B1, B2 in family 1. -/
def scenarioA_persons : person_map :=
  [("A1", ⟨"A1", 1, 0⟩), ("A2", ⟨"A2", 1, 0⟩), ("B1", ⟨"B1", 1, 1⟩), ("B2", ⟨"B2", 1, 1⟩)]

/-- The assignment of scenario A. -/
def scenarioA_assignment : assignments :=
  [("A1", ["B1"]), ("A2", ["B2"]), ("B1", ["A2"]), ("B2", ["A1"])]

/-- A registry of three families of two persons each, every participation 1. -/
def threeFamilies_persons : person_map :=
  [("A1", ⟨"A1", 1, 0⟩), ("A2", ⟨"A2", 1, 0⟩), ("B1", ⟨"B1", 1, 1⟩), ("B2", ⟨"B2", 1, 1⟩),
   ("C1", ⟨"C1", 1, 2⟩), ("C2", ⟨"C2", 1, 2⟩)]

/-- An assignment for `threeFamilies_persons` that `is_valid` accepts. -/
def threeFamilies_assignment : assignments :=
  [("A1", ["B1"]), ("A2", ["C1"]), ("B1", ["C2"]), ("B2", ["A2"]), ("C1", ["B2"]),
   ("C2", ["A1"])]

/-- The family id that `is_valid` reads for a recipient name: the `family` field
of the record found by `persons.find`. -/
def family_of (persons : person_map) (target_name : String) : family_id :=
  match map_find persons target_name with
  | some target => target.family
  | none => 0

/-- The edges that `is_valid` visits, in visiting order: for each entry of the
registry part `entries`, the giver's key and record with each recipient. -/
def visited_edges (assignments : assignments) :
    List (String × person) → List (String × person × String)
  | [] => []
  | (source_name, source) :: rest =>
    (map_get_or_default assignments source_name []).map (fun t => (source_name, source, t))
      ++ visited_edges assignments rest

/-- The pair `(source.family, target.family)` of an edge. -/
def edge_families (persons : person_map) (e : String × person × String) : family_id × family_id :=
  (e.2.1.family, family_of persons e.2.2)

/-- The number of slots that `generate_assignments` pushes, and then pops, for the
entries `entries` of the registry. -/
def slot_count : List (String × person) → Nat
  | [] => 0
  | (_, p) :: rest => p.participation.toNat + slot_count rest

/-- A registry in which one giver has two slots. -/
def twoSlots_persons : person_map := [("A", ⟨"A", 2, 0⟩), ("B", ⟨"B", 2, 1⟩)]

/-- The sequence of shuffle outcomes that never moves a slot. -/
def identity_draws : Nat → List String → List String := fun _ l => l

/-- A sequence of shuffle outcomes: the first leaves the slot vector as it is, the
later ones rearrange a vector of six slots and leave any other vector as it is. -/
def threeFamilies_draws : Nat → List String → List String
  | 0, l => l
  | _ + 1, [s0, s1, s2, s3, s4, s5] => [s0, s3, s1, s5, s4, s2]
  | _ + 1, l => l

/-- The candidate that the generator builds for `threeFamilies_persons` from the
unshuffled slot vector. -/
def threeFamilies_first_candidate : assignments :=
  [("A1", ["C2"]), ("A2", ["C1"]), ("B1", ["B2"]), ("B2", ["B1"]), ("C1", ["A2"]),
   ("C2", ["A1"])]

/-- The procedure of `is_valid` with the givers visited in the order of `entries`
instead of the order of `persons`; the recipients of a giver are visited in the
order in which the candidate lists them. -/
def is_valid_in_order (persons : person_map) (forbidden_assignments : assignments)
    (assignments : assignments) (entries : List (String × person)) : Option Bool :=
  match check_persons persons forbidden_assignments assignments entries [] with
  | verdict.passed _ => some true
  | verdict.rejected => some false
  | verdict.undefined => none

/-- What the tests of `is_valid` other than the family-pair test require of the
giver `g` with record `pg`: the size of the recipient set, and for each recipient
a registry record, no forbidden pair, another family and no reciprocity. -/
def entry_facts (persons : person_map) (fb a : assignments) (g : String) (pg : person) : Prop :=
  (map_get_or_default a g []).length = int_to_size_t pg.participation ∧
  ∀ t ∈ map_get_or_default a g [], ∃ target, map_find persons t = some target ∧
    t ∉ map_get_or_default fb g [] ∧ target.family ≠ pg.family ∧
    g ∉ map_get_or_default a t []

instance sets_wf_decidable (a : List (String × List String)) : Decidable (sets_wf a) := by
  unfold sets_wf
  infer_instance

/-- The five invariants of the specification read on the givers of the registry,
together with the requirement that every recipient is a registry person:
recipients in the registry, (1) cardinality, (2) no forbidden pair, (3) no gift
inside a family, (4) no reciprocal pair, (5) no family pair induced by two
different edges. -/
def invariants_hold (persons : person_map) (fb a : assignments) : Prop :=
  (∀ g pg, (g, pg) ∈ persons → ∀ r ∈ map_get_or_default a g [],
    ∃ pr, map_find persons r = some pr) ∧
  (∀ g pg, (g, pg) ∈ persons →
    ((map_get_or_default a g []).length : Int) = pg.participation) ∧
  (∀ g pg, (g, pg) ∈ persons → ∀ r ∈ map_get_or_default a g [],
    r ∉ map_get_or_default fb g []) ∧
  (∀ g pg, (g, pg) ∈ persons → ∀ r ∈ map_get_or_default a g [],
    ∀ pr, map_find persons r = some pr → pr.family ≠ pg.family) ∧
  (∀ g pg, (g, pg) ∈ persons → ∀ r ∈ map_get_or_default a g [],
    g ∉ map_get_or_default a r []) ∧
  (∀ g pg r pr g' pg' r' pr',
    (g, pg) ∈ persons → r ∈ map_get_or_default a g [] → map_find persons r = some pr →
    (g', pg') ∈ persons → r' ∈ map_get_or_default a g' [] → map_find persons r' = some pr' →
    (g, r) ≠ (g', r') → (pg.family, pr.family) ≠ (pg'.family, pr'.family))

/-! ## The loader `assigner::add_persons_from_file` -/

/-- The assignment `map[key] = value` of a `std::map<std::string, T>`: the value of
an existing key is overwritten, a new key is inserted at its place in the order. -/
def map_assign {β : Type} : List (String × β) → String → β → List (String × β)
  | [], key, value => [(key, value)]
  | (k, v) :: rest, key, value =>
    if k = key then (k, value) :: rest
    else if string_less key k then (key, value) :: (k, v) :: rest
    else (k, v) :: map_assign rest key value

/-- A person node of the property tree that `read_json` returns: the string that
`get<std::string>("name")` reads, and the `int` that `get("p", 1)` finds, if any. -/
abbrev person_node := String × Option Int

/-- A family node of the property tree: its person nodes in file order. -/
abbrev family_node := List person_node

/-- The largest value of the C++ type `int`. -/
def INT_MAX : Int := 2 ^ 31 - 1

/-- The constant `base_family_id`. -/
def base_family_id : family_id := 0

/-- The members `next_family_id` and `persons` of an `assigner`. -/
structure assigner_state where
  next_family_id : family_id
  persons : person_map
deriving DecidableEq, Repr

/-- An `assigner` just constructed. -/
def fresh_assigner : assigner_state := ⟨base_family_id, []⟩

/-- The record that line 44 stores for a person node of the family `familyId`;
`get("p", 1)` yields 1 when the node has no `p`. -/
def node_person (familyId : family_id) (node : person_node) : person :=
  ⟨node.1, node.2.getD 1, familyId⟩

/-- The inner loop of lines 40-45 over the person nodes of one family node. -/
def add_family_persons (familyId : family_id) : List person_node → person_map → person_map
  | [], persons => persons
  | node :: rest, persons =>
    add_family_persons familyId rest (map_assign persons node.1 (node_person familyId node))

/-- The method `assigner::add_persons_from_file` on the tree read from the file:
the loop of lines 37-46 over the family nodes.  The result is `none` when
`next_family_id++` overflows the type `int`, which is undefined behaviour. -/
def add_persons_from_file : List family_node → assigner_state → Option assigner_state
  | [], state => some state
  | family_node :: rest, state =>
    if state.next_family_id = INT_MAX then none
    else add_persons_from_file rest
      ⟨state.next_family_id + 1,
        add_family_persons state.next_family_id family_node state.persons⟩

/-- The loop of `main` (lines 186-189) over the trees of the person files. -/
def add_persons_from_files : List (List family_node) → assigner_state → Option assigner_state
  | [], state => some state
  | tree :: rest, state =>
    match add_persons_from_file tree state with
    | none => none
    | some state' => add_persons_from_files rest state'

/-- The person records in load order: every person node of the family groups
`groups`, in order, with the family id of its group, the first group having the
id `next`. -/
def loaded_records : List family_node → family_id → List (String × person)
  | [], _ => []
  | family_node :: rest, next =>
    family_node.map (fun node => (node.1, node_person next node))
      ++ loaded_records rest (next + 1)

/-- The record of the last occurrence of `name` in a list of records in load
order, if the name occurs. -/
def last_record : List (String × person) → String → Option person
  | [], _ => none
  | (k, p) :: rest, name =>
    match last_record rest name with
    | some q => some q
    | none => if k = name then some p else none

/-- The registry after the writes `persons[name] = record` of a list of records,
in order. -/
def apply_writes (writes : List (String × person)) (persons : person_map) : person_map :=
  writes.foldl (fun m w => map_assign m w.1 w.2) persons

/-- Two person files: A occurs in the first group of the first file and again in
the group of the second file. -/
def duplicate_files : List (List family_node) :=
  [[[("A", none), ("B", some 2)], [("C", none)]], [[("A", some 3), ("D", none)]]]

/-- Two person files with pairwise distinct names, three family groups in all. -/
def distinct_files : List (List family_node) :=
  [[[("A", none), ("B", some 2)], [("C", none)]], [[("E", some 3), ("D", none)]]]

/-- A candidate for `twoSlots_persons` with two recipients for each giver. -/
def twoSlots_assignment : assignments := [("A", ["A", "B"]), ("B", ["A", "B"])]

/-- The candidate `twoSlots_assignment` with the recipients listed in descending
order. -/
def twoSlots_assignment_descending : assignments := [("A", ["B", "A"]), ("B", ["B", "A"])]

/-- The sum of the participation counts of the members of family `F` among the
entries `entries` of the registry. -/
def family_slots (F : family_id) : List (String × person) → Int
  | [] => 0
  | (_, p) :: rest => (if p.family = F then p.participation else 0) + family_slots F rest

/-- The distinct family ids of the registry other than `F`. -/
def other_families (persons : person_map) (F : family_id) : List family_id :=
  ((persons.map (fun e => e.2.family)).dedup).filter (fun f => decide (f ≠ F))

/-- The registry of scenario C: A1 is in family 0 with A2 and A3, and B1 is the
only person of family 1. -/
def scenarioC_persons : person_map :=
  [("A1", ⟨"A1", 1, 0⟩), ("A2", ⟨"A2", 1, 0⟩), ("A3", ⟨"A3", 1, 0⟩), ("B1", ⟨"B1", 1, 1⟩)]

/-- The forbidden table of scenario C: A1 must not give to B1. -/
def scenarioC_forbidden : assignments := [("A1", ["B1"])]

/-- A candidate for scenario C whose recipients are all in the registry. -/
def scenarioC_candidate : assignments :=
  [("A1", ["B1"]), ("A2", ["B1"]), ("A3", ["B1"]), ("B1", ["A2"])]

/-- The number of givers of the registry that have `x` among their recipients in
the candidate `a`. -/
def receive_count (persons : person_map) (a : assignments) (x : String) : Nat :=
  (persons.filter (fun e => decide (x ∈ map_get_or_default a e.1 []))).length

/-- The slots that the second loop of `generate_assignments` pops for the giver `g`
when it walks the entries `entries` with the slot vector `targets`: each entry
takes its `participation` slots off the back of what the earlier entries left.
The slots are listed in vector order. -/
def popped_for (g : String) : List (String × person) → List String → List String
  | [], _ => []
  | (name, p) :: rest, targets =>
    if name = g then targets.drop (targets.length - p.participation.toNat)
    else popped_for g rest (targets.take (targets.length - p.participation.toNat))

/-! ## The order of names -/

theorem char_toNat_inj (c d : Char) (h : c.toNat = d.toNat) : c = d := by
  cases c with | mk cv ch =>
  cases d with | mk dv dh =>
  cases cv with | mk cf =>
  cases dv with | mk df =>
  simp only [Char.toNat, UInt32.toNat] at h
  have : cf = df := BitVec.eq_of_toNat_eq h
  subst this
  rfl

theorem chars_less_irrefl (l : List Char) : chars_less l l = false := by
  induction l with
  | nil => rfl
  | cons c cs ih => simp [chars_less, ih]

theorem chars_less_trans : ∀ (a b c : List Char),
    chars_less a b = true → chars_less b c = true → chars_less a c = true := by
  intro a
  induction a with
  | nil =>
    intro b c hab hbc
    cases b with
    | nil => simp [chars_less] at hab
    | cons y ys =>
      cases c with
      | nil => simp [chars_less] at hbc
      | cons z zs => simp [chars_less]
  | cons x xs ih =>
    intro b c hab hbc
    cases b with
    | nil => simp [chars_less] at hab
    | cons y ys =>
      cases c with
      | nil => simp [chars_less] at hbc
      | cons z zs =>
        simp only [chars_less] at hab hbc ⊢
        split_ifs at hab hbc ⊢ <;> first | rfl | omega | exact ih _ _ hab hbc

theorem chars_less_total : ∀ (a b : List Char),
    a ≠ b → chars_less a b = false → chars_less b a = true := by
  intro a
  induction a with
  | nil =>
    intro b hne hab
    cases b with
    | nil => exact absurd rfl hne
    | cons y ys => simp [chars_less] at hab
  | cons x xs ih =>
    intro b hne hab
    cases b with
    | nil => simp [chars_less]
    | cons y ys =>
      simp only [chars_less] at hab ⊢
      by_cases h1 : x.toNat < y.toNat
      · simp [h1] at hab
      · by_cases h2 : y.toNat < x.toNat
        · simp [h2]
        · have hxy : x = y := char_toNat_inj x y (by omega)
          subst hxy
          simp only [h1, if_false] at hab ⊢
          exact ih ys (fun h => hne (by rw [h])) hab

theorem string_less_irrefl (a : String) : string_less a a = false :=
  chars_less_irrefl a.data

theorem string_less_trans {a b c : String} (hab : string_less a b = true)
    (hbc : string_less b c = true) : string_less a c = true :=
  chars_less_trans _ _ _ hab hbc

theorem string_less_total {a b : String} (hne : a ≠ b) (hab : string_less a b = false) :
    string_less b a = true :=
  chars_less_total _ _ (fun h => hne (String.ext h)) hab

theorem string_less_ne {a b : String} (hab : string_less a b = true) : a ≠ b := by
  intro h
  subst h
  rw [string_less_irrefl] at hab
  exact absurd hab (by simp)

/-! ## Sets and maps -/

theorem set_wf_nodup {s : List String} (h : set_wf s) : s.Nodup := by
  unfold set_wf at h
  exact h.imp (fun hab => string_less_ne hab)

theorem mem_set_insert (s : List String) (x y : String) :
    y ∈ set_insert s x ↔ y = x ∨ y ∈ s := by
  induction s with
  | nil => simp [set_insert]
  | cons z zs ih =>
    simp only [set_insert]
    split_ifs with h1 h2
    · subst h1
      simp
    · simp
    · simp only [List.mem_cons, ih]
      tauto

theorem set_insert_wf (s : List String) (x : String) (h : set_wf s) :
    set_wf (set_insert s x) := by
  induction s with
  | nil => simp [set_insert, set_wf]
  | cons z zs ih =>
    unfold set_wf at h
    have hz := (List.pairwise_cons.mp h).1
    have hzs : set_wf zs := (List.pairwise_cons.mp h).2
    simp only [set_insert]
    split_ifs with h1 h2
    · exact h
    · refine List.pairwise_cons.mpr ⟨?_, h⟩
      intro w hw
      rcases List.mem_cons.mp hw with rfl | hw
      · exact h2
      · exact string_less_trans h2 (hz w hw)
    · refine List.pairwise_cons.mpr ⟨?_, ih hzs⟩
      intro w hw
      rcases (mem_set_insert zs x w).mp hw with rfl | hw
      · exact string_less_total (fun e => h1 e.symm) (by simpa using h2)
      · exact hz w hw

theorem set_insert_length_le (s : List String) (x : String) :
    (set_insert s x).length ≤ s.length + 1 := by
  induction s with
  | nil => simp [set_insert]
  | cons z zs ih =>
    simp only [set_insert]
    split_ifs <;> simp only [List.length_cons] <;> omega

theorem set_insert_length_pos (s : List String) (x : String) :
    1 ≤ (set_insert s x).length := by
  cases s with
  | nil => simp [set_insert]
  | cons z zs =>
    simp only [set_insert]
    split_ifs <;> simp

theorem map_find_eq_none {β : Type} (m : List (String × β)) (key : String)
    (h : ∀ e ∈ m, e.1 ≠ key) : map_find m key = none := by
  induction m with
  | nil => rfl
  | cons e rest ih =>
    obtain ⟨k, v⟩ := e
    have hk : k ≠ key := h (k, v) (List.mem_cons_self _ _)
    simp only [map_find, hk, if_false]
    exact ih (fun e he => h e (List.mem_cons_of_mem _ he))

theorem map_find_some_mem {β : Type} (m : List (String × β)) (key : String) (v : β)
    (h : map_find m key = some v) : (key, v) ∈ m := by
  induction m with
  | nil => simp [map_find] at h
  | cons e rest ih =>
    obtain ⟨k, w⟩ := e
    simp only [map_find] at h
    split_ifs at h with hk
    · simp only [Option.some.injEq] at h
      subst hk
      subst h
      exact List.mem_cons_self _ _
    · exact List.mem_cons_of_mem _ (ih h)

theorem map_find_of_mem {β : Type} (m : List (String × β)) (hwf : map_wf m) (key : String)
    (v : β) (h : (key, v) ∈ m) : map_find m key = some v := by
  induction m with
  | nil => simp at h
  | cons e rest ih =>
    obtain ⟨k, w⟩ := e
    unfold map_wf set_wf at hwf
    simp only [List.map_cons, List.pairwise_cons] at hwf
    rcases List.mem_cons.mp h with hh | hh
    · obtain ⟨rfl, rfl⟩ := Prod.mk.inj hh
      simp [map_find]
    · have hlt : string_less k key = true := hwf.1 key (List.mem_map.mpr ⟨(key, v), hh, rfl⟩)
      simp only [map_find, string_less_ne hlt, if_false]
      exact ih hwf.2 hh

theorem map_insert_into_keys (a : List (String × List String)) (key x : String) :
    (map_insert_into a key x).map Prod.fst = set_insert (a.map Prod.fst) key := by
  induction a with
  | nil => simp [map_insert_into, set_insert]
  | cons e rest ih =>
    obtain ⟨k, s⟩ := e
    simp only [map_insert_into, List.map_cons, set_insert]
    split_ifs <;> simp [ih]

theorem map_insert_into_wf (a : List (String × List String)) (key x : String)
    (h : map_wf a) : map_wf (map_insert_into a key x) := by
  unfold map_wf
  rw [map_insert_into_keys]
  exact set_insert_wf _ _ h

theorem map_find_insert_into_ne (a : List (String × List String)) (key x k' : String)
    (hne : key ≠ k') : map_find (map_insert_into a key x) k' = map_find a k' := by
  induction a with
  | nil => simp [map_insert_into, map_find, hne]
  | cons e rest ih =>
    obtain ⟨k, s⟩ := e
    simp only [map_insert_into]
    split_ifs with h1 h2
    · subst h1
      simp [map_find, hne]
    · simp [map_find, hne]
    · simp only [map_find, ih]

theorem map_find_insert_into_self (a : List (String × List String)) (key x : String)
    (hwf : map_wf a) :
    map_find (map_insert_into a key x) key = some (set_insert (map_get_or_default a key []) x) := by
  induction a with
  | nil => simp [map_insert_into, map_find, map_get_or_default]
  | cons e rest ih =>
    obtain ⟨k, s⟩ := e
    have hwf' := hwf
    unfold map_wf set_wf at hwf'
    simp only [List.map_cons, List.pairwise_cons] at hwf'
    simp only [map_insert_into]
    split_ifs with h1 h2
    · subst h1
      simp [map_find, map_get_or_default]
    · have hnone : map_find ((k, s) :: rest) key = none := by
        apply map_find_eq_none
        intro e he heq
        rcases List.mem_cons.mp he with rfl | he
        · exact h1 heq
        · have hlt : string_less k e.1 = true := hwf'.1 e.1 (List.mem_map.mpr ⟨e, he, rfl⟩)
          rw [heq] at hlt
          have := string_less_trans h2 hlt
          rw [string_less_irrefl] at this
          exact absurd this (by simp)
      simp only [map_get_or_default, hnone]
      simp [map_find]
    · have := ih hwf'.2
      simp only [map_find, h1, if_false, this, map_get_or_default]

theorem map_insert_into_sets_wf (a : List (String × List String)) (key x : String)
    (h : sets_wf a) : sets_wf (map_insert_into a key x) := by
  induction a with
  | nil =>
    intro e he
    simp only [map_insert_into, List.mem_singleton] at he
    subst he
    exact set_insert_wf _ _ (by simp [set_wf])
  | cons e rest ih =>
    obtain ⟨k, s⟩ := e
    have hs : set_wf s := h (k, s) (List.mem_cons_self _ _)
    have hrest : sets_wf rest := fun e he => h e (List.mem_cons_of_mem _ he)
    simp only [map_insert_into]
    split_ifs with h1 h2
    · intro e he
      rcases List.mem_cons.mp he with rfl | he
      · exact set_insert_wf _ _ hs
      · exact hrest e he
    · intro e he
      rcases List.mem_cons.mp he with rfl | he
      · exact set_insert_wf _ _ (by simp [set_wf])
      · exact h e he
    · intro e he
      rcases List.mem_cons.mp he with rfl | he
      · exact hs
      · exact ih hrest e he
theorem get_or_default_of_find_none {β : Type} (m : List (String × β)) (key : String) (d : β)
    (h : map_find m key = none) : map_get_or_default m key d = d := by
  simp [map_get_or_default, h]

theorem find_of_get_or_default_ne_nil (a : assignments) (key : String)
    (h : map_get_or_default a key [] ≠ []) :
    map_find a key = some (map_get_or_default a key []) := by
  unfold map_get_or_default at h ⊢
  split at h
  · exact absurd rfl h
  · rename_i s hs
    simp [hs]

/-! ## The generator: what its loops establish -/

theorem push_slots_length (name : String) (count : Nat) :
    ∀ targets, (push_slots name count targets).length = targets.length + count := by
  induction count with
  | zero => intro targets; rfl
  | succ n ih =>
    intro targets
    simp only [push_slots, ih, List.length_append, List.length_singleton]
    omega

theorem fill_targets_length (entries : List (String × person)) :
    ∀ targets, (fill_targets entries targets).length = targets.length + slot_count entries := by
  induction entries with
  | nil => intro targets; rfl
  | cons e rest ih =>
    obtain ⟨name, p⟩ := e
    intro targets
    simp only [fill_targets, ih, push_slots_length, slot_count]
    omega

theorem pop_slots_spec (name : String) (count : Nat) :
    ∀ (a : assignments) (pre seg : List String), seg.length = count → map_wf a → sets_wf a →
      ∃ a', pop_slots name count (a, pre ++ seg) = some (a', pre) ∧ map_wf a' ∧ sets_wf a' ∧
        (∀ k, k ≠ name → map_find a' k = map_find a k) ∧
        (map_get_or_default a' name []).length ≤ (map_get_or_default a name []).length + count ∧
        (∀ x, x ∈ map_get_or_default a' name [] ↔
          x ∈ map_get_or_default a name [] ∨ x ∈ seg) := by
  induction count with
  | zero =>
    intro a pre seg hlen hwf hsets
    have hseg : seg = [] := List.length_eq_zero.mp hlen
    subst hseg
    exact ⟨a, by simp [pop_slots], hwf, hsets, fun _ _ => rfl, by simp, by simp⟩
  | succ n ih =>
    intro a pre seg hlen hwf hsets
    have hne : seg ≠ [] := by
      intro h
      rw [h] at hlen
      simp at hlen
    obtain ⟨back, hback⟩ : ∃ back, seg.getLast? = some back := by
      cases hl : seg.getLast? with
      | none => exact absurd (List.getLast?_eq_none_iff.mp hl) hne
      | some b => exact ⟨b, rfl⟩
    have hsplit : seg.dropLast ++ [back] = seg := List.dropLast_append_getLast? back hback
    have hlen' : seg.dropLast.length = n := by
      rw [List.length_dropLast, hlen]
      rfl
    have htargets : pre ++ seg = (pre ++ seg.dropLast) ++ [back] := by
      rw [List.append_assoc, hsplit]
    obtain ⟨a', hrun, hwf', hsets', hother, hsize, hmem⟩ :=
      ih (map_insert_into a name back) pre seg.dropLast hlen'
        (map_insert_into_wf a name back hwf) (map_insert_into_sets_wf a name back hsets)
    have hself : map_get_or_default (map_insert_into a name back) name []
        = set_insert (map_get_or_default a name []) back := by
      simp only [map_get_or_default, map_find_insert_into_self a name back hwf]
    refine ⟨a', ?_, hwf', hsets', ?_, ?_, ?_⟩
    · rw [htargets]
      simp only [pop_slots, List.getLast?_concat, List.dropLast_concat]
      exact hrun
    · intro k hk
      rw [hother k hk, map_find_insert_into_ne a name back k (fun e => hk e.symm)]
    · rw [hself] at hsize
      have := set_insert_length_le (map_get_or_default a name []) back
      omega
    · intro x
      rw [hmem x, hself, mem_set_insert]
      constructor
      · rintro ((rfl | h) | h)
        · right
          rw [← hsplit]
          simp
        · exact Or.inl h
        · exact Or.inr (List.mem_of_mem_dropLast h)
      · rintro (h | h)
        · exact Or.inl (Or.inr h)
        · rw [← hsplit] at h
          rcases List.mem_append.mp h with h | h
          · exact Or.inr h
          · exact Or.inl (Or.inl (List.mem_singleton.mp h))

theorem assign_targets_spec (entries : List (String × person)) :
    ∀ (a : assignments) (targets : List String), slot_count entries ≤ targets.length →
      map_wf entries → map_wf a → sets_wf a → (∀ e ∈ entries, map_find a e.1 = none) →
      ∃ a' targets', assign_targets entries (a, targets) = some (a', targets') ∧
        targets'.length + slot_count entries = targets.length ∧ map_wf a' ∧ sets_wf a' ∧
        (∀ k, (∀ e ∈ entries, e.1 ≠ k) → map_find a' k = map_find a k) ∧
        (∀ g pg, (g, pg) ∈ entries →
          (map_get_or_default a' g []).length ≤ pg.participation.toNat ∧
          (0 < pg.participation.toNat → 1 ≤ (map_get_or_default a' g []).length) ∧
          ∀ x ∈ map_get_or_default a' g [], x ∈ targets) := by
  induction entries with
  | nil =>
    intro a targets _ _ hwf hsets _
    exact ⟨a, targets, rfl, by simp [slot_count], hwf, hsets, fun _ _ => rfl, by simp⟩
  | cons e rest ih =>
    obtain ⟨name, p⟩ := e
    intro a targets hcount hkeys hwf hsets hfresh
    simp only [slot_count] at hcount
    have hkeys' := hkeys
    unfold map_wf set_wf at hkeys'
    simp only [List.map_cons, List.pairwise_cons] at hkeys'
    have hrest_ne : ∀ e ∈ rest, e.1 ≠ name := fun e he =>
      (string_less_ne (hkeys'.1 e.1 (List.mem_map.mpr ⟨e, he, rfl⟩))).symm
    have hsplit : targets = targets.take (targets.length - p.participation.toNat)
        ++ targets.drop (targets.length - p.participation.toNat) :=
      (List.take_append_drop _ _).symm
    have hseg : (targets.drop (targets.length - p.participation.toNat)).length
        = p.participation.toNat := by
      rw [List.length_drop]
      omega
    have hpre : (targets.take (targets.length - p.participation.toNat)).length
        = targets.length - p.participation.toNat := by
      rw [List.length_take]
      omega
    obtain ⟨a1, hrun1, hwf1, hsets1, hother1, hsize1, hmem1⟩ :=
      pop_slots_spec name p.participation.toNat a _ _ hseg hwf hsets
    rw [← hsplit] at hrun1
    have hfresh1 : ∀ e ∈ rest, map_find a1 e.1 = none := by
      intro e he
      rw [hother1 e.1 (hrest_ne e he)]
      exact hfresh e (List.mem_cons_of_mem _ he)
    obtain ⟨a', targets', hrun, hlen, hwf', hsets', hother, hall⟩ :=
      ih a1 (targets.take (targets.length - p.participation.toNat))
        (by rw [hpre]; omega) hkeys'.2 hwf1 hsets1 hfresh1
    have hnil : map_get_or_default a name [] = [] :=
      get_or_default_of_find_none a name [] (hfresh (name, p) (List.mem_cons_self _ _))
    have hsame : map_get_or_default a' name [] = map_get_or_default a1 name [] := by
      simp only [map_get_or_default, hother name hrest_ne]
    refine ⟨a', targets', ?_, ?_, hwf', hsets', ?_, ?_⟩
    · simp only [assign_targets, hrun1]
      exact hrun
    · simp only [slot_count]
      rw [hpre] at hlen
      omega
    · intro k hk
      rw [hother k (fun e he => hk e (List.mem_cons_of_mem _ he)),
        hother1 k (fun h => hk (name, p) (List.mem_cons_self _ _) h.symm)]
    · intro g pg hg
      rcases List.mem_cons.mp hg with hh | hh
      · obtain ⟨rfl, rfl⟩ := Prod.mk.inj hh
        rw [hsame]
        rw [hnil] at hsize1
        refine ⟨by simpa using hsize1, ?_, ?_⟩
        · intro hpos
          have hne : targets.drop (targets.length - pg.participation.toNat) ≠ [] := by
            intro h
            rw [h] at hseg
            simp at hseg
            omega
          obtain ⟨x, hx⟩ := List.exists_mem_of_ne_nil _ hne
          have hxin : x ∈ map_get_or_default a1 g [] := (hmem1 x).mpr (Or.inr hx)
          exact List.length_pos_of_mem hxin
        · intro x hx
          rcases (hmem1 x).mp hx with h | h
          · rw [hnil] at h
            simp at h
          · exact List.mem_of_mem_drop h
      · obtain ⟨h1, h2, h3⟩ := hall g pg hh
        exact ⟨h1, h2, fun x hx => List.mem_of_mem_take (h3 x hx)⟩

theorem get_or_default_set_wf (a : assignments) (hsets : sets_wf a) (g : String) :
    set_wf (map_get_or_default a g []) := by
  unfold map_get_or_default
  split
  · simp [set_wf]
  · rename_i s hs
    exact hsets (g, s) (map_find_some_mem a g s hs)

theorem generate_assignments_spec (persons : person_map) (shuffle : List String → List String)
    (hwf : map_wf persons)
    (hlen : (shuffle (fill_targets persons [])).length = (fill_targets persons []).length) :
    ∃ a, generate_assignments persons shuffle = some a ∧ map_wf a ∧ sets_wf a ∧
      (∀ k, (∀ e ∈ persons, e.1 ≠ k) → map_find a k = none) ∧
      (∀ g pg, (g, pg) ∈ persons →
        (map_get_or_default a g []).length ≤ pg.participation.toNat ∧
        (0 < pg.participation.toNat → 1 ≤ (map_get_or_default a g []).length) ∧
        ∀ x ∈ map_get_or_default a g [], x ∈ shuffle (fill_targets persons [])) := by
  obtain ⟨a', targets', hrun, _, hwf', hsets', hother, hall⟩ :=
    assign_targets_spec persons [] (shuffle (fill_targets persons []))
      (by rw [hlen, fill_targets_length]; simp) hwf (by simp [map_wf, set_wf])
      (by intro e he; simp at he) (fun _ _ => rfl)
  refine ⟨a', ?_, hwf', hsets', ?_, hall⟩
  · simp only [generate_assignments, hrun]
  · intro k hk
    rw [hother k hk]
    rfl

/-! ## The validator: what a passed run establishes -/

theorem check_targets_passed (persons : person_map) (a : assignments) (sn : String) (s : person)
    (fb : List String) (ts : List String) :
    ∀ (fa fa' : List (family_id × family_id)),
      check_targets persons a sn s fb ts fa = verdict.passed fa' →
      (∀ t ∈ ts, ∃ target, map_find persons t = some target ∧ t ∉ fb ∧
        target.family ≠ s.family ∧ sn ∉ map_get_or_default a t []) ∧
      fa' = (ts.map (fun t => (s.family, family_of persons t))).reverse ++ fa ∧
      (fa.Nodup → fa'.Nodup) := by
  induction ts with
  | nil =>
    intro fa fa' h
    simp only [check_targets, verdict.passed.injEq] at h
    subst h
    simp
  | cons t rest ih =>
    intro fa fa' h
    unfold check_targets at h
    split at h
    · exact absurd h (by simp)
    · rename_i target hfind
      split_ifs at h with h1 h2 h3 h4
      obtain ⟨hall, heq, hnd⟩ := ih _ _ h
      refine ⟨?_, ?_, ?_⟩
      · intro t' ht'
        rcases List.mem_cons.mp ht' with rfl | ht'
        · exact ⟨target, hfind, h1, h2, h3⟩
        · exact hall t' ht'
      · rw [heq]
        simp [family_of, hfind]
      · intro hfa
        exact hnd (List.nodup_cons.mpr ⟨h4, hfa⟩)

theorem check_persons_passed (persons : person_map) (fb a : assignments)
    (entries : List (String × person)) :
    ∀ (fa fa' : List (family_id × family_id)),
      check_persons persons fb a entries fa = verdict.passed fa' →
      (∀ g pg, (g, pg) ∈ entries →
        (map_get_or_default a g []).length = int_to_size_t pg.participation ∧
        ∀ t ∈ map_get_or_default a g [], ∃ target, map_find persons t = some target ∧
          t ∉ map_get_or_default fb g [] ∧ target.family ≠ pg.family ∧
          g ∉ map_get_or_default a t []) ∧
      fa' = ((visited_edges a entries).map (edge_families persons)).reverse ++ fa ∧
      (fa.Nodup → fa'.Nodup) := by
  induction entries with
  | nil =>
    intro fa fa' h
    simp only [check_persons, verdict.passed.injEq] at h
    subst h
    simp [visited_edges]
  | cons e rest ih =>
    obtain ⟨sn, s⟩ := e
    intro fa fa' h
    simp only [check_persons] at h
    split_ifs at h with hsize
    split at h
    · rename_i fa1 hct
      obtain ⟨hall, heq, hnd⟩ := check_targets_passed persons a sn s _ _ _ _ hct
      obtain ⟨hall2, heq2, hnd2⟩ := ih _ _ h
      refine ⟨?_, ?_, ?_⟩
      · intro g pg hmem
        rcases List.mem_cons.mp hmem with hh | hh
        · obtain ⟨rfl, rfl⟩ := Prod.mk.inj hh
          exact ⟨not_not.mp hsize, hall⟩
        · exact hall2 g pg hh
      · rw [heq2, heq]
        simp [visited_edges, edge_families, List.map_append, Function.comp_def]
      · intro hfa
        exact hnd2 (hnd hfa)
    · exact absurd h (by simp)
    · exact absurd h (by simp)

theorem is_valid_true_iff (persons : person_map) (fb a : assignments) :
    is_valid persons fb a = some true ↔
      ∃ fa', check_persons persons fb a persons [] = verdict.passed fa' := by
  unfold is_valid
  split <;> simp_all

theorem mem_visited_edges (a : assignments) (entries : List (String × person))
    (g : String) (pg : person) (r : String) (hg : (g, pg) ∈ entries)
    (hr : r ∈ map_get_or_default a g []) : (g, pg, r) ∈ visited_edges a entries := by
  induction entries with
  | nil => simp at hg
  | cons e rest ih =>
    obtain ⟨sn, s⟩ := e
    simp only [visited_edges, List.mem_append, List.mem_map]
    rcases List.mem_cons.mp hg with hh | hh
    · obtain ⟨rfl, rfl⟩ := Prod.mk.inj hh
      exact Or.inl ⟨r, hr, rfl⟩
    · exact Or.inr (ih hh)

theorem is_valid_true_edges_nodup (persons : person_map) (fb a : assignments)
    (h : is_valid persons fb a = some true) :
    ((visited_edges a persons).map (edge_families persons)).Nodup := by
  obtain ⟨fa', hfa⟩ := (is_valid_true_iff persons fb a).mp h
  obtain ⟨_, heq, hnd⟩ := check_persons_passed persons fb a persons [] fa' hfa
  have := hnd List.nodup_nil
  rw [heq, List.append_nil] at this
  exact List.nodup_reverse.mp this

theorem get_or_default_length_lt (a : assignments) (bound : Nat) (hb : 0 < bound)
    (hsize : ∀ e ∈ a, e.2.length < bound) (g : String) :
    (map_get_or_default a g []).length < bound := by
  unfold map_get_or_default
  split
  · simpa using hb
  · rename_i s hs
    exact hsize (g, s) (map_find_some_mem a g s hs)

theorem size_eq_participation (n : Nat) (p : Int) (hp : is_int p) (hn : n < 2 ^ 63)
    (h : n = int_to_size_t p) : (n : Int) = p := by
  unfold is_int at hp
  unfold int_to_size_t at h
  omega

theorem valid_entry_facts (persons : person_map) (fb a : assignments)
    (h : is_valid persons fb a = some true) (g : String) (pg : person)
    (hg : (g, pg) ∈ persons) :
    (map_get_or_default a g []).length = int_to_size_t pg.participation ∧
    ∀ t ∈ map_get_or_default a g [], ∃ target, map_find persons t = some target ∧
      t ∉ map_get_or_default fb g [] ∧ target.family ≠ pg.family ∧
      g ∉ map_get_or_default a t [] := by
  obtain ⟨fa', hfa⟩ := (is_valid_true_iff persons fb a).mp h
  exact (check_persons_passed persons fb a persons [] fa' hfa).1 g pg hg

theorem valid_edges_injective (persons : person_map) (fb a : assignments)
    (h : is_valid persons fb a = some true)
    (g : String) (pg : person) (r : String) (pr : person)
    (g' : String) (pg' : person) (r' : String) (pr' : person)
    (hg : (g, pg) ∈ persons) (hr : r ∈ map_get_or_default a g [])
    (hpr : map_find persons r = some pr)
    (hg' : (g', pg') ∈ persons) (hr' : r' ∈ map_get_or_default a g' [])
    (hpr' : map_find persons r' = some pr')
    (hfam : (pg.family, pr.family) = (pg'.family, pr'.family)) : g = g' ∧ r = r' := by
  have hnd := is_valid_true_edges_nodup persons fb a h
  have he := List.inj_on_of_nodup_map hnd (mem_visited_edges a persons g pg r hg hr)
    (mem_visited_edges a persons g' pg' r' hg' hr')
    (by simpa [edge_families, family_of, hpr, hpr'] using hfam)
  simp only [Prod.mk.injEq] at he
  exact ⟨he.1, he.2.2⟩

theorem scenarioA_recipient_family (fb a : assignments)
    (h : is_valid scenarioA_persons fb a = some true) (g : String) (pg : person)
    (hg : (g, pg) ∈ scenarioA_persons) (hfam : pg.family = 0) :
    ∃ r pr, r ∈ map_get_or_default a g [] ∧ map_find scenarioA_persons r = some pr ∧
      pr.family = 1 := by
  have hp : pg.participation = 1 := by
    simp only [scenarioA_persons, List.mem_cons, Prod.mk.injEq, List.mem_singleton,
      List.not_mem_nil, or_false] at hg
    rcases hg with ⟨_, rfl⟩ | ⟨_, rfl⟩ | ⟨_, rfl⟩ | ⟨_, rfl⟩ <;> rfl
  obtain ⟨hlen, hall⟩ := valid_entry_facts scenarioA_persons fb a h g pg hg
  have h1 : (map_get_or_default a g []).length = 1 := by
    rw [hlen, hp]
    decide
  obtain ⟨r, hr⟩ := List.length_eq_one.mp h1
  have hmem : r ∈ map_get_or_default a g [] := by
    rw [hr]
    exact List.mem_singleton_self r
  obtain ⟨pr, hfind, _, hne, _⟩ := hall r hmem
  refine ⟨r, pr, hmem, hfind, ?_⟩
  have hin := map_find_some_mem scenarioA_persons r pr hfind
  simp only [scenarioA_persons, List.mem_cons, Prod.mk.injEq, List.mem_singleton,
    List.not_mem_nil, or_false] at hin
  rw [hfam] at hne
  rcases hin with ⟨_, rfl⟩ | ⟨_, rfl⟩ | ⟨_, rfl⟩ | ⟨_, rfl⟩
  · exact absurd rfl hne
  · exact absurd rfl hne
  · rfl
  · rfl

/-! ## The retry loop: when it returns -/

theorem retry_loop_returned_iff (persons : person_map) (fb : assignments)
    (draws : Nat → List String → List String) (a : assignments) :
    ∀ fuel k, retry_loop persons fb draws fuel k = run_result.returned a ↔
      ∃ i, i < fuel ∧ generate_assignments persons (draws (k + i)) = some a ∧
        is_valid persons fb a = some true ∧
        ∀ j, j < i → ∃ c, generate_assignments persons (draws (k + j)) = some c ∧
          is_valid persons fb c = some false := by
  intro fuel
  induction fuel with
  | zero =>
    intro k
    simp [retry_loop]
  | succ n ih =>
    intro k
    constructor
    · intro h
      simp only [retry_loop] at h
      cases hgen : generate_assignments persons (draws k) with
      | none => simp [hgen] at h
      | some c =>
        cases hval : is_valid persons fb c with
        | none => simp [hgen, hval] at h
        | some b =>
          cases b with
          | true =>
            simp only [hgen, hval, run_result.returned.injEq] at h
            subst h
            exact ⟨0, Nat.succ_pos n, by simpa using hgen, hval,
              fun j hj => absurd hj (Nat.not_lt_zero j)⟩
          | false =>
            simp only [hgen, hval] at h
            obtain ⟨i, hi, hgi, hvi, hbefore⟩ := (ih (k + 1)).mp h
            refine ⟨i + 1, Nat.succ_lt_succ hi, ?_, hvi, ?_⟩
            · have e : k + (i + 1) = k + 1 + i := by omega
              rw [e]
              exact hgi
            · intro j hj
              cases j with
              | zero => exact ⟨c, by simpa using hgen, hval⟩
              | succ j' =>
                obtain ⟨c', hc', hv'⟩ := hbefore j' (Nat.lt_of_succ_lt_succ hj)
                have e : k + (j' + 1) = k + 1 + j' := by omega
                rw [e]
                exact ⟨c', hc', hv'⟩
    · rintro ⟨i, hi, hgi, hvi, hbefore⟩
      cases i with
      | zero =>
        simp only [Nat.add_zero] at hgi
        simp only [retry_loop, hgi, hvi]
      | succ i' =>
        obtain ⟨c, hc, hv⟩ := hbefore 0 (Nat.succ_pos i')
        simp only [Nat.add_zero] at hc
        simp only [retry_loop, hc, hv]
        refine (ih (k + 1)).mpr ⟨i', Nat.lt_of_succ_lt_succ hi, ?_, hvi, ?_⟩
        · have e : k + 1 + i' = k + (i' + 1) := by omega
          rw [e]
          exact hgi
        · intro j hj
          obtain ⟨c', hc', hv'⟩ := hbefore (j + 1) (Nat.succ_lt_succ hj)
          have e : k + 1 + j = k + (j + 1) := by omega
          rw [e]
          exact ⟨c', hc', hv'⟩

theorem retry_loop_running (persons : person_map) (fb : assignments)
    (draws : Nat → List String → List String)
    (h : ∀ k, ∃ c, generate_assignments persons (draws k) = some c ∧
      is_valid persons fb c = some false) :
    ∀ fuel k, retry_loop persons fb draws fuel k = run_result.running := by
  intro fuel
  induction fuel with
  | zero => intro k; rfl
  | succ n ih =>
    intro k
    obtain ⟨c, hc, hv⟩ := h k
    simp only [retry_loop, hc, hv]
    exact ih (k + 1)

/-! ## A registry of one person -/

theorem single_person_candidate (name : String) (p : person)
    (shuffle : List String → List String) (hp : p.participation = 1)
    (hperm : ∀ l, (shuffle l).Perm l) :
    generate_assignments [(name, p)] shuffle = some [(name, [name])] := by
  have hslots : fill_targets [(name, p)] [] = [name] := by
    simp [fill_targets, push_slots, hp]
  have hsh : shuffle [name] = [name] := List.perm_singleton.mp (hperm [name])
  simp [generate_assignments, assign_targets, pop_slots, hslots, hsh, hp, map_insert_into,
    set_insert]

theorem single_person_rejected (name : String) (p : person) (fb : assignments)
    (hp : p.participation = 1) :
    is_valid [(name, p)] fb [(name, [name])] = some false := by
  have hsz : int_to_size_t 1 = 1 := by decide
  by_cases hf : name ∈ map_get_or_default fb name []
  · simp [is_valid, check_persons, check_targets, map_get_or_default, map_find, hp, hsz] at hf ⊢
  · simp [is_valid, check_persons, check_targets, map_get_or_default, map_find, hp, hsz] at hf ⊢

theorem single_person_no_valid (name : String) (p : person) (fb a : assignments)
    (hp : p.participation = 1) : is_valid [(name, p)] fb a ≠ some true := by
  intro h
  have hsz : int_to_size_t 1 = 1 := by decide
  obtain ⟨hlen, hall⟩ :=
    valid_entry_facts [(name, p)] fb a h name p (List.mem_singleton_self _)
  rw [hp, hsz] at hlen
  obtain ⟨r, hr⟩ := List.length_eq_one.mp hlen
  have hmem : r ∈ map_get_or_default a name [] := by
    rw [hr]
    exact List.mem_singleton_self r
  obtain ⟨target, hfind, _, hne, _⟩ := hall r hmem
  have hin := map_find_some_mem [(name, p)] r target hfind
  simp only [List.mem_singleton, Prod.mk.injEq] at hin
  exact hne (by rw [hin.2])

/-! ## The claims on the validator -/

/-- C1 (cardinality). When `is_valid` returns true, every person of the registry
has exactly `participation` recipients in the candidate, the recipient set of a
name that is no key of the candidate being empty.  The registry holds `int`
participations and a `std::set` has fewer than `2 ^ 63` elements. -/
theorem is_valid_cardinality (persons : person_map) (forbidden_assignments a : assignments)
    (hint : ∀ e ∈ persons, is_int e.2.participation)
    (hsize : ∀ e ∈ a, e.2.length < 2 ^ 63)
    (h : is_valid persons forbidden_assignments a = some true) :
    ∀ g pg, (g, pg) ∈ persons →
      ((map_get_or_default a g []).length : Int) = pg.participation := by
  intro g pg hg
  obtain ⟨fa', hfa⟩ := (is_valid_true_iff persons forbidden_assignments a).mp h
  obtain ⟨hall, _, _⟩ := check_persons_passed persons forbidden_assignments a persons [] fa' hfa
  exact size_eq_participation _ _ (hint (g, pg) hg)
    (get_or_default_length_lt a (2 ^ 63) (by norm_num) hsize g) (hall g pg hg).1

/-- Witness of C1: the giver A1 of the three-family registry. -/
theorem is_valid_cardinality_witness :
    is_valid threeFamilies_persons [] threeFamilies_assignment = some true ∧
    ((map_get_or_default threeFamilies_assignment "A1" []).length : Int) = 1 :=
  ⟨by decide, is_valid_cardinality threeFamilies_persons [] threeFamilies_assignment
    (by decide) (by decide) (by decide) "A1" ⟨"A1", 1, 0⟩ (by decide)⟩

/-- C2 (no self or family gifting). When `is_valid` returns true, every recipient
of a registry giver is a registry person whose family id differs from the
giver's, and the recipient is never the giver. -/
theorem is_valid_no_family_gift (persons : person_map) (forbidden_assignments a : assignments)
    (h : is_valid persons forbidden_assignments a = some true) :
    ∀ g pg, (g, pg) ∈ persons → ∀ r ∈ map_get_or_default a g [],
      (∃ pr, map_find persons r = some pr ∧ pr.family ≠ pg.family) ∧ r ≠ g := by
  intro g pg hg r hr
  obtain ⟨fa', hfa⟩ := (is_valid_true_iff persons forbidden_assignments a).mp h
  obtain ⟨hall, _, _⟩ := check_persons_passed persons forbidden_assignments a persons [] fa' hfa
  obtain ⟨target, hfind, _, hfam, hrec⟩ := (hall g pg hg).2 r hr
  refine ⟨⟨target, hfind, hfam⟩, ?_⟩
  intro hrg
  subst hrg
  exact hrec hr

/-- Witness of C2: the edge A1 -> B1 of the three-family registry. -/
theorem is_valid_no_family_gift_witness :
    is_valid threeFamilies_persons [] threeFamilies_assignment = some true ∧
    (∃ pr, map_find threeFamilies_persons "B1" = some pr ∧ pr.family ≠ 0) ∧ "B1" ≠ "A1" :=
  ⟨by decide, is_valid_no_family_gift threeFamilies_persons [] threeFamilies_assignment
    (by decide) "A1" ⟨"A1", 1, 0⟩ (by decide) "B1" (by decide)⟩

/-- C3 (no forbidden pair). When `is_valid` returns true, no recipient of a
registry giver is in the giver's forbidden set. -/
theorem is_valid_no_forbidden (persons : person_map) (forbidden_assignments a : assignments)
    (h : is_valid persons forbidden_assignments a = some true) :
    ∀ g pg, (g, pg) ∈ persons → ∀ r ∈ map_get_or_default a g [],
      r ∉ map_get_or_default forbidden_assignments g [] := by
  intro g pg hg r hr
  obtain ⟨fa', hfa⟩ := (is_valid_true_iff persons forbidden_assignments a).mp h
  obtain ⟨hall, _, _⟩ := check_persons_passed persons forbidden_assignments a persons [] fa' hfa
  obtain ⟨_, _, hforb, _, _⟩ := (hall g pg hg).2 r hr
  exact hforb

/-- Witness of C3: the three-family registry with a forbidden table that the
accepted assignment respects. -/
theorem is_valid_no_forbidden_witness :
    is_valid threeFamilies_persons [("A1", ["C1", "C2"]), ("B2", ["C1"])]
      threeFamilies_assignment = some true ∧
    "B1" ∉ map_get_or_default [("A1", ["C1", "C2"]), ("B2", ["C1"])] "A1" [] :=
  ⟨by decide, is_valid_no_forbidden threeFamilies_persons
    [("A1", ["C1", "C2"]), ("B2", ["C1"])] threeFamilies_assignment (by decide)
    "A1" ⟨"A1", 1, 0⟩ (by decide) "B1" (by decide)⟩

/-- C4 (no reciprocity). When `is_valid` returns true, no recipient of a registry
giver has that giver among its own recipients. -/
theorem is_valid_no_reciprocity (persons : person_map) (forbidden_assignments a : assignments)
    (h : is_valid persons forbidden_assignments a = some true) :
    ∀ g pg, (g, pg) ∈ persons → ∀ r ∈ map_get_or_default a g [],
      g ∉ map_get_or_default a r [] := by
  intro g pg hg r hr
  obtain ⟨fa', hfa⟩ := (is_valid_true_iff persons forbidden_assignments a).mp h
  obtain ⟨hall, _, _⟩ := check_persons_passed persons forbidden_assignments a persons [] fa' hfa
  obtain ⟨_, _, _, _, hrec⟩ := (hall g pg hg).2 r hr
  exact hrec

/-- Witness of C4: the edge A1 -> B1 of the three-family registry. -/
theorem is_valid_no_reciprocity_witness :
    is_valid threeFamilies_persons [] threeFamilies_assignment = some true ∧
    "A1" ∉ map_get_or_default threeFamilies_assignment "B1" [] :=
  ⟨by decide, is_valid_no_reciprocity threeFamilies_persons [] threeFamilies_assignment
    (by decide) "A1" ⟨"A1", 1, 0⟩ (by decide) "B1" (by decide)⟩

/-- C5 (family-edge uniqueness). When `is_valid` returns true, two different edges
from registry givers to their recipients never induce the same ordered pair
(giver family, recipient family). -/
theorem is_valid_family_edges_unique (persons : person_map)
    (forbidden_assignments a : assignments)
    (h : is_valid persons forbidden_assignments a = some true) :
    ∀ g pg r pr g' pg' r' pr',
      (g, pg) ∈ persons → r ∈ map_get_or_default a g [] → map_find persons r = some pr →
      (g', pg') ∈ persons → r' ∈ map_get_or_default a g' [] → map_find persons r' = some pr' →
      (g, r) ≠ (g', r') → (pg.family, pr.family) ≠ (pg'.family, pr'.family) := by
  intro g pg r pr g' pg' r' pr' hg hr hpr hg' hr' hpr' hne hfam
  obtain ⟨h1, h2⟩ := valid_edges_injective persons forbidden_assignments a h
    g pg r pr g' pg' r' pr' hg hr hpr hg' hr' hpr' hfam
  exact hne (by rw [h1, h2])

/-- Witness of C5: the edges A1 -> B1 and A2 -> C1 of the three-family registry. -/
theorem is_valid_family_edges_unique_witness :
    is_valid threeFamilies_persons [] threeFamilies_assignment = some true ∧
    (((0 : family_id), (1 : family_id)) ≠ (0, 2)) :=
  ⟨by decide, is_valid_family_edges_unique threeFamilies_persons [] threeFamilies_assignment
    (by decide) "A1" ⟨"A1", 1, 0⟩ "B1" ⟨"B1", 1, 1⟩ "A2" ⟨"A2", 1, 0⟩ "C1" ⟨"C1", 1, 2⟩
    (by decide) (by decide) (by decide) (by decide) (by decide) (by decide) (by decide)⟩

/-- C6, the claim as stated fails: on the registry of scenario A with an empty
forbidden table, `is_valid` does not return true on
`{A1:{B1}, A2:{B2}, B1:{A2}, B2:{A1}}`. -/
theorem scenarioA_assignment_not_accepted :
    ¬ (is_valid scenarioA_persons [] scenarioA_assignment = some true) := by
  decide

/-- C6 as amended. On the registry of scenario A, `is_valid` returns false on
`{A1:{B1}, A2:{B2}, B1:{A2}, B2:{A1}}` (the edges A1->B1 and A2->B2 induce the
same family pair), and whatever the forbidden table it returns true on no
candidate at all. -/
theorem scenarioA_no_valid_assignment :
    is_valid scenarioA_persons [] scenarioA_assignment = some false ∧
    ∀ fb a : assignments, is_valid scenarioA_persons fb a ≠ some true := by
  refine ⟨by decide, ?_⟩
  intro fb a h
  have hA1 : (("A1", ⟨"A1", 1, 0⟩) : String × person) ∈ scenarioA_persons := by
    simp [scenarioA_persons]
  have hA2 : (("A2", ⟨"A2", 1, 0⟩) : String × person) ∈ scenarioA_persons := by
    simp [scenarioA_persons]
  obtain ⟨r1, pr1, hr1, hf1, hfam1⟩ := scenarioA_recipient_family fb a h _ _ hA1 rfl
  obtain ⟨r2, pr2, hr2, hf2, hfam2⟩ := scenarioA_recipient_family fb a h _ _ hA2 rfl
  have := valid_edges_injective scenarioA_persons fb a h _ _ r1 pr1 _ _ r2 pr2
    hA1 hr1 hf1 hA2 hr2 hf2 (by rw [hfam1, hfam2])
  exact absurd this.1 (by decide)

/-- C7, the claim as stated fails: every participation of `twoSlots_persons` is at
least 1 and the shuffle outcome is a permutation, yet the candidate gives A, whose
participation is 2, a single recipient: both slots popped for A name B. -/
theorem generate_assignments_collapses_duplicates :
    (∀ e ∈ twoSlots_persons, 1 ≤ e.2.participation) ∧
    (∀ l : List String, (id l).Perm l) ∧
    generate_assignments twoSlots_persons id = some [("A", ["B"]), ("B", ["A"])] ∧
    (("A", ⟨"A", 2, 0⟩) : String × person) ∈ twoSlots_persons ∧
    (map_get_or_default [("A", ["B"]), ("B", ["A"])] "A" []).length ≠ 2 := by
  exact ⟨by decide, fun l => List.Perm.refl l, by decide, by decide, by decide⟩

/-- C8 (the retry loop returns the first valid candidate). Within `fuel`
iterations `generate_valid_assignments` returns `a` exactly when some iteration
`i < fuel` built `a` from its shuffle outcome, `is_valid` returned true on `a`, and
every earlier iteration built a candidate on which `is_valid` returned false. -/
theorem generate_valid_assignments_returns_first_valid (persons : person_map)
    (forbidden_assignments : assignments) (draws : Nat → List String → List String)
    (fuel : Nat) (a : assignments) :
    generate_valid_assignments persons forbidden_assignments draws fuel
        = run_result.returned a ↔
      ∃ i, i < fuel ∧ generate_assignments persons (draws i) = some a ∧
        is_valid persons forbidden_assignments a = some true ∧
        ∀ j, j < i → ∃ c, generate_assignments persons (draws j) = some c ∧
          is_valid persons forbidden_assignments c = some false := by
  unfold generate_valid_assignments
  rw [retry_loop_returned_iff]
  simp only [Nat.zero_add]

/-- A run for C8: on the three-family registry the first candidate is rejected and
the second iteration returns its candidate. -/
theorem generate_valid_assignments_returns_first_valid_witness :
    generate_valid_assignments threeFamilies_persons [] threeFamilies_draws 2
      = run_result.returned threeFamilies_assignment :=
  (generate_valid_assignments_returns_first_valid threeFamilies_persons []
    threeFamilies_draws 2 threeFamilies_assignment).mpr
    ⟨1, by decide, by decide, by decide, fun j hj =>
      ⟨threeFamilies_first_candidate, by
        have hj0 : j = 0 := by omega
        subst hj0
        decide, by decide⟩⟩

/-- C10 (scenario B). For a registry of a single person with participation 1 and
any forbidden table, `is_valid` returns true on no candidate; whatever the shuffle
outcomes, every iteration of the retry loop builds a candidate on which `is_valid`
returns false, and after any number of iterations `generate_valid_assignments` has
not returned. -/
theorem single_person_never_returns (name : String) (p : person)
    (forbidden_assignments : assignments) (draws : Nat → List String → List String)
    (hp : p.participation = 1) (hperm : ∀ k l, (draws k l).Perm l) :
    (∀ a, is_valid [(name, p)] forbidden_assignments a ≠ some true) ∧
    (∀ k, ∃ c, generate_assignments [(name, p)] (draws k) = some c ∧
      is_valid [(name, p)] forbidden_assignments c = some false) ∧
    ∀ fuel, generate_valid_assignments [(name, p)] forbidden_assignments draws fuel
      = run_result.running := by
  have hiter : ∀ k, ∃ c, generate_assignments [(name, p)] (draws k) = some c ∧
      is_valid [(name, p)] forbidden_assignments c = some false := fun k =>
    ⟨[(name, [name])], single_person_candidate name p (draws k) hp (hperm k),
      single_person_rejected name p forbidden_assignments hp⟩
  refine ⟨fun a => single_person_no_valid name p forbidden_assignments a hp, hiter, ?_⟩
  intro fuel
  exact retry_loop_running [(name, p)] forbidden_assignments draws hiter fuel 0

/-- Witness of C10: the registry of the single person A, no shuffle moving a
slot. -/
theorem single_person_never_returns_witness :
    (∀ a, is_valid [("A", ⟨"A", 1, 0⟩)] [] a ≠ some true) ∧
    (∀ k, ∃ c, generate_assignments [("A", ⟨"A", 1, 0⟩)] (identity_draws k) = some c ∧
      is_valid [("A", ⟨"A", 1, 0⟩)] [] c = some false) ∧
    ∀ fuel, generate_valid_assignments [("A", ⟨"A", 1, 0⟩)] [] identity_draws fuel
      = run_result.running :=
  single_person_never_returns "A" ⟨"A", 1, 0⟩ [] identity_draws rfl
    (fun _ l => List.Perm.refl l)

/-! ## The validator: when a run passes -/

theorem check_targets_defined (persons : person_map) (a : assignments) (sn : String) (s : person)
    (fb : List String) (ts : List String) :
    ∀ fa, (∀ t ∈ ts, map_find persons t ≠ none) →
      check_targets persons a sn s fb ts fa ≠ verdict.undefined := by
  induction ts with
  | nil => intro fa _; simp [check_targets]
  | cons t rest ih =>
    intro fa hreg
    unfold check_targets
    split
    · rename_i hnone
      exact absurd hnone (hreg t (List.mem_cons_self _ _))
    · split_ifs
      · simp
      · simp
      · simp
      · simp
      · exact ih _ (fun t' ht' => hreg t' (List.mem_cons_of_mem _ ht'))

theorem check_persons_defined (persons : person_map) (fb a : assignments)
    (entries : List (String × person)) :
    ∀ fa, (∀ g pg, (g, pg) ∈ entries → ∀ r ∈ map_get_or_default a g [],
        map_find persons r ≠ none) →
      check_persons persons fb a entries fa ≠ verdict.undefined := by
  induction entries with
  | nil => intro fa _; simp [check_persons]
  | cons e rest ih =>
    obtain ⟨sn, s⟩ := e
    intro fa hreg
    simp only [check_persons]
    split_ifs
    · simp
    · split
      · exact ih _ (fun g pg hg => hreg g pg (List.mem_cons_of_mem _ hg))
      · simp
      · rename_i hund
        exact absurd hund (check_targets_defined persons a sn s _ _ _
          (hreg sn s (List.mem_cons_self _ _)))

theorem check_targets_complete (persons : person_map) (a : assignments) (sn : String) (s : person)
    (fb : List String) (ts : List String) :
    ∀ fa, (∀ t ∈ ts, ∃ target, map_find persons t = some target ∧ t ∉ fb ∧
        target.family ≠ s.family ∧ sn ∉ map_get_or_default a t []) →
      ((ts.map (fun t => (s.family, family_of persons t))).reverse ++ fa).Nodup →
      check_targets persons a sn s fb ts fa
        = verdict.passed ((ts.map (fun t => (s.family, family_of persons t))).reverse ++ fa) := by
  induction ts with
  | nil => intro fa _ _; simp [check_targets]
  | cons t rest ih =>
    intro fa hall hnd
    obtain ⟨target, hfind, h1, h2, h3⟩ := hall t (List.mem_cons_self _ _)
    have hfam : family_of persons t = target.family := by simp [family_of, hfind]
    have hnd' : ((rest.map (fun t => (s.family, family_of persons t))).reverse
        ++ ((s.family, target.family) :: fa)).Nodup := by
      simpa [hfam, List.append_assoc] using hnd
    have h4 : (s.family, target.family) ∉ fa :=
      (List.nodup_cons.mp (List.nodup_append.mp hnd').2.1).1
    unfold check_targets
    simp only [hfind, h1, h2, h3, h4, if_false]
    rw [ih _ (fun t' ht' => hall t' (List.mem_cons_of_mem _ ht')) hnd']
    simp [hfam, List.append_assoc]

theorem check_persons_complete (persons : person_map) (fb a : assignments)
    (entries : List (String × person)) :
    ∀ fa, (∀ g pg, (g, pg) ∈ entries → entry_facts persons fb a g pg) →
      (((visited_edges a entries).map (edge_families persons)).reverse ++ fa).Nodup →
      check_persons persons fb a entries fa
        = verdict.passed (((visited_edges a entries).map (edge_families persons)).reverse
            ++ fa) := by
  induction entries with
  | nil => intro fa _ _; simp [check_persons, visited_edges]
  | cons e rest ih =>
    obtain ⟨sn, s⟩ := e
    intro fa hall hnd
    obtain ⟨hlen, htargets⟩ := hall sn s (List.mem_cons_self _ _)
    have hshape : ((visited_edges a ((sn, s) :: rest)).map (edge_families persons)).reverse ++ fa
        = ((visited_edges a rest).map (edge_families persons)).reverse
          ++ (((map_get_or_default a sn []).map
              (fun t => (s.family, family_of persons t))).reverse ++ fa) := by
      simp [visited_edges, edge_families, List.map_append, Function.comp_def]
    rw [hshape] at hnd ⊢
    have hinner := check_targets_complete persons a sn s (map_get_or_default fb sn [])
      (map_get_or_default a sn []) fa htargets (List.nodup_append.mp hnd).2.1
    simp only [check_persons, hlen, ne_eq, not_true_eq_false, if_false, hinner]
    exact ih _ (fun g pg hg => hall g pg (List.mem_cons_of_mem _ hg)) hnd

theorem is_valid_in_order_true_iff (persons : person_map) (fb a : assignments)
    (entries : List (String × person)) :
    is_valid_in_order persons fb a entries = some true ↔
      (∀ g pg, (g, pg) ∈ entries → entry_facts persons fb a g pg) ∧
      ((visited_edges a entries).map (edge_families persons)).Nodup := by
  constructor
  · intro h
    have hpassed : ∃ fa', check_persons persons fb a entries [] = verdict.passed fa' := by
      unfold is_valid_in_order at h
      split at h <;> simp_all
    obtain ⟨fa', hfa⟩ := hpassed
    obtain ⟨hall, heq, hnd⟩ := check_persons_passed persons fb a entries [] fa' hfa
    refine ⟨hall, ?_⟩
    have := hnd List.nodup_nil
    rw [heq, List.append_nil] at this
    exact List.nodup_reverse.mp this
  · rintro ⟨hall, hnd⟩
    have := check_persons_complete persons fb a entries [] hall
      (by simpa using hnd)
    simp [is_valid_in_order, this]

theorem is_valid_eq_in_order (persons : person_map) (fb a : assignments) :
    is_valid persons fb a = is_valid_in_order persons fb a persons := rfl

theorem is_valid_in_order_defined (persons : person_map) (fb a : assignments)
    (entries : List (String × person))
    (hreg : ∀ g pg, (g, pg) ∈ entries → ∀ r ∈ map_get_or_default a g [],
      map_find persons r ≠ none) :
    is_valid_in_order persons fb a entries ≠ none := by
  have := check_persons_defined persons fb a entries [] hreg
  unfold is_valid_in_order
  split <;> simp_all

theorem mem_visited_edges_iff (a : assignments) (entries : List (String × person))
    (e : String × person × String) :
    e ∈ visited_edges a entries ↔
      (e.1, e.2.1) ∈ entries ∧ e.2.2 ∈ map_get_or_default a e.1 [] := by
  obtain ⟨g, pg, r⟩ := e
  induction entries with
  | nil => simp [visited_edges]
  | cons x rest ih =>
    obtain ⟨sn, s⟩ := x
    simp only [visited_edges, List.mem_append, List.mem_map, Prod.mk.injEq, ih, List.mem_cons]
    constructor
    · rintro (⟨t, ht, rfl, rfl, rfl⟩ | ⟨h1, h2⟩)
      · exact ⟨Or.inl ⟨rfl, rfl⟩, ht⟩
      · exact ⟨Or.inr h1, h2⟩
    · rintro ⟨⟨rfl, rfl⟩ | h1, h2⟩
      · exact Or.inl ⟨r, h2, rfl, rfl, rfl⟩
      · exact Or.inr ⟨h1, h2⟩

theorem map_wf_head_fresh {β : Type} (k : String) (v : β) (rest : List (String × β))
    (hwf : map_wf ((k, v) :: rest)) : ∀ e ∈ rest, e.1 ≠ k := by
  unfold map_wf set_wf at hwf
  simp only [List.map_cons, List.pairwise_cons] at hwf
  intro e he
  exact (string_less_ne (hwf.1 e.1 (List.mem_map.mpr ⟨e, he, rfl⟩))).symm

theorem map_wf_tail {β : Type} (e : String × β) (rest : List (String × β))
    (hwf : map_wf (e :: rest)) : map_wf rest := by
  unfold map_wf set_wf at hwf ⊢
  simp only [List.map_cons, List.pairwise_cons] at hwf
  exact hwf.2

theorem visited_edges_nodup (a : assignments) (entries : List (String × person))
    (hwf : map_wf entries) (hsets : ∀ g, (map_get_or_default a g []).Nodup) :
    (visited_edges a entries).Nodup := by
  induction entries with
  | nil => simp [visited_edges]
  | cons x rest ih =>
    obtain ⟨sn, s⟩ := x
    simp only [visited_edges]
    refine List.nodup_append.mpr ⟨?_, ih (map_wf_tail _ _ hwf), ?_⟩
    · refine List.Nodup.map_on ?_ (hsets sn)
      intro x _ y _ hxy
      simp only [Prod.mk.injEq, true_and] at hxy
      exact hxy
    · intro e he1 he2
      obtain ⟨t, _, rfl⟩ := List.mem_map.mp he1
      have := ((mem_visited_edges_iff a rest _).mp he2).1
      exact map_wf_head_fresh sn s rest hwf _ this rfl

theorem visited_edges_perm_sets (a a' : assignments) (entries : List (String × person))
    (hsets : ∀ g, (map_get_or_default a' g []).Perm (map_get_or_default a g [])) :
    (visited_edges a' entries).Perm (visited_edges a entries) := by
  induction entries with
  | nil => simp [visited_edges]
  | cons x rest ih =>
    obtain ⟨sn, s⟩ := x
    simp only [visited_edges]
    exact List.Perm.append ((hsets sn).map _) ih

theorem visited_edges_perm_entries (a : assignments) (l₁ l₂ : List (String × person))
    (h : l₁.Perm l₂) : (visited_edges a l₁).Perm (visited_edges a l₂) := by
  induction h with
  | nil => exact List.Perm.refl _
  | cons x _ ih =>
    obtain ⟨sn, s⟩ := x
    simp only [visited_edges]
    exact List.Perm.append_left _ ih
  | swap x y l =>
    obtain ⟨sn, s⟩ := x
    obtain ⟨sn', s'⟩ := y
    simp only [visited_edges, ← List.append_assoc]
    exact List.Perm.append_right _ List.perm_append_comm
  | trans _ _ ih1 ih2 => exact ih1.trans ih2

theorem sets_wf_nodup (a : assignments) (hsets : sets_wf a) (g : String) :
    (map_get_or_default a g []).Nodup :=
  set_wf_nodup (get_or_default_set_wf a hsets g)

theorem invariants_of_valid (persons : person_map) (fb a : assignments)
    (hint : ∀ e ∈ persons, is_int e.2.participation)
    (hsize : ∀ e ∈ a, e.2.length < 2 ^ 63)
    (h : is_valid persons fb a = some true) : invariants_hold persons fb a := by
  have hfacts := valid_entry_facts persons fb a h
  refine ⟨?_, ?_, ?_, ?_, ?_, ?_⟩
  · intro g pg hg r hr
    obtain ⟨target, hfind, _⟩ := (hfacts g pg hg).2 r hr
    exact ⟨target, hfind⟩
  · intro g pg hg
    exact size_eq_participation _ _ (hint (g, pg) hg)
      (get_or_default_length_lt a (2 ^ 63) (by norm_num) hsize g) (hfacts g pg hg).1
  · intro g pg hg r hr
    obtain ⟨_, _, h2, _, _⟩ := (hfacts g pg hg).2 r hr
    exact h2
  · intro g pg hg r hr pr hpr
    obtain ⟨target, hfind, _, h3, _⟩ := (hfacts g pg hg).2 r hr
    rw [hpr] at hfind
    simp only [Option.some.injEq] at hfind
    rw [hfind]
    exact h3
  · intro g pg hg r hr
    obtain ⟨_, _, _, _, h4⟩ := (hfacts g pg hg).2 r hr
    exact h4
  · intro g pg r pr g' pg' r' pr' hg hr hpr hg' hr' hpr' hne hfam
    obtain ⟨e1, e2⟩ := valid_edges_injective persons fb a h g pg r pr g' pg' r' pr'
      hg hr hpr hg' hr' hpr' hfam
    exact hne (by rw [e1, e2])

theorem valid_of_invariants (persons : person_map) (fb a : assignments)
    (hwf : map_wf persons) (hsets : sets_wf a)
    (hint : ∀ e ∈ persons, is_int e.2.participation)
    (h : invariants_hold persons fb a) : is_valid persons fb a = some true := by
  obtain ⟨hreg, h1, h2, h3, h4, h5⟩ := h
  rw [is_valid_eq_in_order, is_valid_in_order_true_iff]
  refine ⟨?_, ?_⟩
  · intro g pg hg
    refine ⟨?_, ?_⟩
    · have hp := hint (g, pg) hg
      have hl := h1 g pg hg
      unfold is_int at hp
      unfold int_to_size_t
      simp only at hp
      omega
    · intro t ht
      obtain ⟨pr, hpr⟩ := hreg g pg hg t ht
      exact ⟨pr, hpr, h2 g pg hg t ht, h3 g pg hg t ht pr hpr, h4 g pg hg t ht⟩
  · refine List.Nodup.map_on ?_ (visited_edges_nodup a persons hwf (sets_wf_nodup a hsets))
    rintro ⟨g, pg, r⟩ he ⟨g', pg', r'⟩ he' hfam
    obtain ⟨hg, hr⟩ := (mem_visited_edges_iff a persons _).mp he
    obtain ⟨hg', hr'⟩ := (mem_visited_edges_iff a persons _).mp he'
    simp only at hg hr hg' hr'
    obtain ⟨pr, hpr⟩ := hreg g pg hg r hr
    obtain ⟨pr', hpr'⟩ := hreg g' pg' hg' r' hr'
    have hpair : (pg.family, pr.family) = (pg'.family, pr'.family) := by
      simpa [edge_families, family_of, hpr, hpr'] using hfam
    have hsame : (g, r) = (g', r') := by
      by_contra hne
      exact h5 g pg r pr g' pg' r' pr' hg hr hpr hg' hr' hpr' hne hpair
    obtain ⟨rfl, rfl⟩ := Prod.mk.inj hsame
    have e1 := map_find_of_mem persons hwf g pg hg
    have e2 := map_find_of_mem persons hwf g pg' hg'
    rw [e1] at e2
    simp only [Option.some.injEq] at e2
    rw [e2]

theorem in_order_eq_of_perm (persons : person_map) (fb a a' : assignments)
    (entries : List (String × person)) (hperm : entries.Perm persons)
    (hsets : ∀ g, (map_get_or_default a' g []).Perm (map_get_or_default a g []))
    (hreg : ∀ e ∈ persons, ∀ r ∈ map_get_or_default a e.1 [], map_find persons r ≠ none) :
    is_valid_in_order persons fb a' entries = is_valid persons fb a ∧
      is_valid persons fb a ≠ none := by
  have hdef : is_valid persons fb a ≠ none :=
    is_valid_in_order_defined persons fb a persons (fun g pg hg r hr => hreg (g, pg) hg r hr)
  have hdef' : is_valid_in_order persons fb a' entries ≠ none :=
    is_valid_in_order_defined persons fb a' entries (fun g pg hg r hr =>
      hreg (g, pg) (hperm.mem_iff.mp hg) r ((hsets g).mem_iff.mp hr))
  have hfacts : ∀ g pg, entry_facts persons fb a' g pg ↔ entry_facts persons fb a g pg := by
    intro g pg
    unfold entry_facts
    rw [(hsets g).length_eq]
    constructor
    · rintro ⟨hl, ht⟩
      refine ⟨hl, fun t htm => ?_⟩
      obtain ⟨target, q1, q2, q3, q4⟩ := ht t ((hsets g).mem_iff.mpr htm)
      exact ⟨target, q1, q2, q3, fun hm => q4 ((hsets t).mem_iff.mpr hm)⟩
    · rintro ⟨hl, ht⟩
      refine ⟨hl, fun t htm => ?_⟩
      obtain ⟨target, q1, q2, q3, q4⟩ := ht t ((hsets g).mem_iff.mp htm)
      exact ⟨target, q1, q2, q3, fun hm => q4 ((hsets t).mem_iff.mp hm)⟩
  have hedges : (visited_edges a' entries).Perm (visited_edges a persons) :=
    (visited_edges_perm_sets a a' entries hsets).trans
      (visited_edges_perm_entries a entries persons hperm)
  have hiff : is_valid_in_order persons fb a' entries = some true ↔
      is_valid persons fb a = some true := by
    rw [is_valid_eq_in_order, is_valid_in_order_true_iff, is_valid_in_order_true_iff,
      (hedges.map (edge_families persons)).nodup_iff]
    constructor
    · rintro ⟨hall, hnd⟩
      exact ⟨fun g pg hg => (hfacts g pg).mp (hall g pg (hperm.mem_iff.mpr hg)), hnd⟩
    · rintro ⟨hall, hnd⟩
      exact ⟨fun g pg hg => (hfacts g pg).mpr (hall g pg (hperm.mem_iff.mp hg)), hnd⟩
  refine ⟨?_, hdef⟩
  cases h1 : is_valid_in_order persons fb a' entries with
  | none => exact absurd h1 hdef'
  | some b =>
    cases h2 : is_valid persons fb a with
    | none => exact absurd h2 hdef
    | some c =>
      cases b <;> cases c
      · rfl
      · exact absurd (hiff.mpr h2) (by rw [h1]; simp)
      · exact absurd (hiff.mp h1) (by rw [h2]; simp)
      · rfl

/-! ## The claims on completeness and order of the validator -/

/-- C12 (completeness of the validator). For a registry of `int` participations and
a candidate of sets with fewer than `2 ^ 63` elements, `is_valid` returns true
exactly when the recipients of the registry givers are registry persons and the
five invariants hold; in particular it returns true whenever they hold.
Non-negative participations follow from the cardinality invariant. -/
theorem is_valid_complete (persons : person_map) (forbidden_assignments a : assignments)
    (hwf : map_wf persons) (hsets : sets_wf a)
    (hint : ∀ e ∈ persons, is_int e.2.participation)
    (hsize : ∀ e ∈ a, e.2.length < 2 ^ 63) :
    (invariants_hold persons forbidden_assignments a →
      is_valid persons forbidden_assignments a = some true) ∧
    (is_valid persons forbidden_assignments a = some true →
      invariants_hold persons forbidden_assignments a) :=
  ⟨valid_of_invariants persons forbidden_assignments a hwf hsets hint,
    invariants_of_valid persons forbidden_assignments a hint hsize⟩

/-- Witness of C12 on the three-family registry: the invariants hold and the
validator returns true. -/
theorem is_valid_complete_witness :
    invariants_hold threeFamilies_persons [] threeFamilies_assignment ∧
    is_valid threeFamilies_persons [] threeFamilies_assignment = some true :=
  have h := is_valid_complete threeFamilies_persons [] threeFamilies_assignment
    (by decide) (by decide) (by decide) (by decide)
  have hinv := h.2 (by decide)
  ⟨hinv, h.1 hinv⟩

/-- C13 (order independence). When every recipient of a registry giver is a
registry person, visiting the givers in any other order `entries` and the
recipients of each giver in any other order (the candidate `a'` lists the same
sets in another order) gives the boolean that `is_valid` returns, and `is_valid`
does return a boolean. -/
theorem is_valid_order_independent (persons : person_map)
    (forbidden_assignments a a' : assignments) (entries : List (String × person))
    (hperm : entries.Perm persons)
    (hsets : ∀ g, (map_get_or_default a' g []).Perm (map_get_or_default a g []))
    (hreg : ∀ e ∈ persons, ∀ r ∈ map_get_or_default a e.1 [], map_find persons r ≠ none) :
    is_valid_in_order persons forbidden_assignments a' entries
        = is_valid persons forbidden_assignments a ∧
      is_valid persons forbidden_assignments a ≠ none :=
  in_order_eq_of_perm persons forbidden_assignments a a' entries hperm hsets hreg

/-- Witness of C13: the givers of `twoSlots_persons` in descending order, the
recipients of each giver in descending order. -/
theorem is_valid_order_independent_witness :
    is_valid_in_order twoSlots_persons [] twoSlots_assignment_descending
        twoSlots_persons.reverse
        = is_valid twoSlots_persons [] twoSlots_assignment ∧
      is_valid twoSlots_persons [] twoSlots_assignment ≠ none :=
  is_valid_order_independent twoSlots_persons [] twoSlots_assignment
    twoSlots_assignment_descending twoSlots_persons.reverse
    (List.reverse_perm _)
    (fun g => by
      unfold twoSlots_assignment_descending twoSlots_assignment map_get_or_default map_find
        map_find map_find
      split_ifs
      · exact List.Perm.swap _ _ _
      · exact List.Perm.swap _ _ _
      · exact List.Perm.refl _)
    (by decide)

/-- C14 (both directions between two families). There are a registry, a forbidden
table and a candidate on which `is_valid` returns true although an edge goes from
one family to another and an edge goes back: in the three-family registry A1 of
family 0 gives to B1 of family 1 and B2 of family 1 gives to A2 of family 0; the
pairs (0, 1) and (1, 0) are different. -/
theorem both_directions_allowed :
    ∃ (persons : person_map) (fb a : assignments) (g r g' r' : String)
      (pg pr pg' pr' : person),
      is_valid persons fb a = some true ∧
      (g, pg) ∈ persons ∧ r ∈ map_get_or_default a g [] ∧ map_find persons r = some pr ∧
      (g', pg') ∈ persons ∧ r' ∈ map_get_or_default a g' [] ∧
      map_find persons r' = some pr' ∧
      pg.family ≠ pr.family ∧ pg'.family = pr.family ∧ pr'.family = pg.family ∧
      (pg.family, pr.family) ≠ (pg'.family, pr'.family) :=
  ⟨threeFamilies_persons, [], threeFamilies_assignment, "A1", "B1", "B2", "A2",
    ⟨"A1", 1, 0⟩, ⟨"B1", 1, 1⟩, ⟨"B2", 1, 1⟩, ⟨"A2", 1, 0⟩,
    by decide, by decide, by decide, by decide, by decide, by decide, by decide,
    by decide, by decide, by decide, by decide⟩

/-! ## Counting the edges that leave a family -/

theorem participation_le_size (p : Int) (hp : is_int p) : p ≤ (int_to_size_t p : Int) := by
  unfold is_int at hp
  unfold int_to_size_t
  omega

theorem family_slots_le_edges (a : assignments) (F : family_id)
    (entries : List (String × person))
    (hint : ∀ e ∈ entries, is_int e.2.participation)
    (h : ∀ g pg, (g, pg) ∈ entries →
      (map_get_or_default a g []).length = int_to_size_t pg.participation) :
    family_slots F entries ≤
      (((visited_edges a entries).filter (fun e => decide (e.2.1.family = F))).length : Int) := by
  induction entries with
  | nil => simp [family_slots, visited_edges]
  | cons x rest ih =>
    obtain ⟨sn, s⟩ := x
    have ih' := ih (fun e he => hint e (List.mem_cons_of_mem _ he))
      (fun g pg hg => h g pg (List.mem_cons_of_mem _ hg))
    have hlen := h sn s (List.mem_cons_self _ _)
    have hp := participation_le_size s.participation (hint (sn, s) (List.mem_cons_self _ _))
    simp only [family_slots, visited_edges, List.filter_append, List.length_append,
      List.filter_map, List.length_map, Nat.cast_add]
    by_cases hF : s.family = F
    · have hall : (List.filter ((fun e : String × person × String => decide (e.2.1.family = F)) ∘
          fun t => (sn, s, t)) (map_get_or_default a sn [])) = map_get_or_default a sn [] := by
        apply List.filter_eq_self.mpr
        intro t _
        simp [hF]
      rw [hall, hlen]
      simp only [hF, if_true]
      omega
    · simp only [hF, if_false]
      omega

theorem length_le_one_of_all_eq {α : Type} (l : List α) (c : α) (hnd : l.Nodup)
    (h : ∀ x ∈ l, x = c) : l.length ≤ 1 := by
  have hsub : l ⊆ [c] := fun x hx => List.mem_singleton.mpr (h x hx)
  simpa using (List.subperm_of_subset hnd hsub).length_le

theorem family_capacity (persons : person_map) (fb a : assignments)
    (hint : ∀ e ∈ persons, is_int e.2.participation)
    (h : is_valid persons fb a = some true) (F : family_id) :
    family_slots F persons ≤ ((other_families persons F).length : Int) := by
  have hfacts := valid_entry_facts persons fb a h
  have hnd := is_valid_true_edges_nodup persons fb a h
  have hcount := family_slots_le_edges a F persons hint (fun g pg hg => (hfacts g pg hg).1)
  have hsubl : ((visited_edges a persons).filter (fun e => decide (e.2.1.family = F))).Sublist
      (visited_edges a persons) := List.filter_sublist _
  have hnd1 := List.Nodup.sublist (hsubl.map (edge_families persons)) hnd
  have hnd2 : (((visited_edges a persons).filter (fun e => decide (e.2.1.family = F))).map
      (fun e => family_of persons e.2.2)).Nodup := by
    have hmap : ((visited_edges a persons).filter (fun e => decide (e.2.1.family = F))).map
        (fun e => family_of persons e.2.2)
        = (((visited_edges a persons).filter (fun e => decide (e.2.1.family = F))).map
            (edge_families persons)).map Prod.snd := by
      simp [List.map_map, Function.comp_def, edge_families]
    rw [hmap]
    refine List.Nodup.map_on ?_ hnd1
    intro x hx y hy hxy
    obtain ⟨ex, hex, rfl⟩ := List.mem_map.mp hx
    obtain ⟨ey, hey, rfl⟩ := List.mem_map.mp hy
    have fx : ex.2.1.family = F := by simpa using (List.mem_filter.mp hex).2
    have fy : ey.2.1.family = F := by simpa using (List.mem_filter.mp hey).2
    simp only [edge_families] at hxy ⊢
    rw [fx, fy, hxy]
  have hsub : (((visited_edges a persons).filter (fun e => decide (e.2.1.family = F))).map
      (fun e => family_of persons e.2.2)) ⊆ other_families persons F := by
    intro f hf
    obtain ⟨e, he, rfl⟩ := List.mem_map.mp hf
    obtain ⟨hev, heF⟩ := List.mem_filter.mp he
    obtain ⟨hg, hr⟩ := (mem_visited_edges_iff a persons e).mp hev
    obtain ⟨target, hfind, _, hne, _⟩ := (hfacts e.1 e.2.1 hg).2 e.2.2 hr
    have hfam : family_of persons e.2.2 = target.family := by simp [family_of, hfind]
    have heF' : e.2.1.family = F := by simpa using heF
    rw [hfam]
    unfold other_families
    refine List.mem_filter.mpr ⟨List.mem_dedup.mpr (List.mem_map.mpr
      ⟨(e.2.2, target), map_find_some_mem persons _ _ hfind, rfl⟩), ?_⟩
    rw [heF'] at hne
    simpa using hne
  have hle := (List.subperm_of_subset hnd2 hsub).length_le
  rw [List.length_map] at hle
  omega

theorem two_families_slots (f1 f2 : family_id) (entries : List (String × person))
    (hp : ∀ e ∈ entries, e.2.participation = 1)
    (hfam : ∀ e ∈ entries, e.2.family = f1 ∨ e.2.family = f2) :
    (entries.length : Int) ≤ family_slots f1 entries + family_slots f2 entries := by
  induction entries with
  | nil => simp [family_slots]
  | cons x rest ih =>
    obtain ⟨sn, s⟩ := x
    have ih' := ih (fun e he => hp e (List.mem_cons_of_mem _ he))
      (fun e he => hfam e (List.mem_cons_of_mem _ he))
    have h1 : s.participation = 1 := hp (sn, s) (List.mem_cons_self _ _)
    have h2 := hfam (sn, s) (List.mem_cons_self _ _)
    simp only [family_slots, List.length_cons, Nat.cast_add, Nat.cast_one, h1]
    rcases h2 with h2 | h2
    · rw [h2, if_pos rfl]
      split_ifs <;> omega
    · rw [h2, if_pos rfl]
      split_ifs <;> omega

theorem two_families_others (persons : person_map) (f1 f2 : family_id)
    (hfam : ∀ e ∈ persons, e.2.family = f1 ∨ e.2.family = f2) :
    (other_families persons f1).length ≤ 1 ∧ (other_families persons f2).length ≤ 1 := by
  have hmem : ∀ F f, f ∈ other_families persons F →
      (f = f1 ∨ f = f2) ∧ f ≠ F := by
    intro F f hf
    unfold other_families at hf
    obtain ⟨hd, hne⟩ := List.mem_filter.mp hf
    obtain ⟨e, he, rfl⟩ := List.mem_map.mp (List.mem_dedup.mp hd)
    exact ⟨hfam e he, by simpa using hne⟩
  have hnd : ∀ F, (other_families persons F).Nodup := fun F =>
    List.Nodup.filter _ (List.nodup_dedup _)
  refine ⟨length_le_one_of_all_eq _ f2 (hnd f1) ?_, length_le_one_of_all_eq _ f1 (hnd f2) ?_⟩
  · intro f hf
    obtain ⟨h1 | h1, h2⟩ := hmem f1 f hf
    · exact absurd h1 h2
    · exact h1
  · intro f hf
    obtain ⟨h1 | h1, h2⟩ := hmem f2 f hf
    · exact h1
    · exact absurd h1 h2

theorem two_families_no_valid (persons : person_map) (fb a : assignments)
    (f1 f2 : family_id) (hthree : 3 ≤ persons.length)
    (hp : ∀ e ∈ persons, e.2.participation = 1)
    (hfam : ∀ e ∈ persons, e.2.family = f1 ∨ e.2.family = f2) :
    is_valid persons fb a ≠ some true := by
  intro h
  have hint : ∀ e ∈ persons, is_int e.2.participation := by
    intro e he
    rw [hp e he]
    decide
  have c1 := family_capacity persons fb a hint h f1
  have c2 := family_capacity persons fb a hint h f2
  have hs := two_families_slots f1 f2 persons hp hfam
  obtain ⟨o1, o2⟩ := two_families_others persons f1 f2 hfam
  omega

theorem defined_not_true_is_false (v : Option Bool) (h1 : v ≠ none) (h2 : v ≠ some true) :
    v = some false := by
  cases v with
  | none => exact absurd rfl h1
  | some b =>
    cases b with
    | false => rfl
    | true => exact absurd rfl h2

/-! ## The claims on infeasible registries -/

/-- C11 (scenario C). For every registry of four persons in two families, all with
participation 1, and every forbidden table, in particular one in which A forbids
B and B is the only person of the other family that A could give to, `is_valid`
returns false on every candidate whose recipients are all in the registry: two
givers of one family would need two different family pairs and there is only one
other family. -/
theorem scenarioC_no_valid_assignment (persons : person_map)
    (forbidden_assignments a : assignments) (f1 f2 : family_id)
    (hfour : persons.length = 4)
    (hp : ∀ e ∈ persons, e.2.participation = 1)
    (hfam : ∀ e ∈ persons, e.2.family = f1 ∨ e.2.family = f2)
    (hreg : ∀ e ∈ persons, ∀ r ∈ map_get_or_default a e.1 [], map_find persons r ≠ none) :
    is_valid persons forbidden_assignments a = some false := by
  apply defined_not_true_is_false
  · rw [is_valid_eq_in_order]
    exact is_valid_in_order_defined persons forbidden_assignments a persons
      (fun g pg hg r hr => hreg (g, pg) hg r hr)
  · exact two_families_no_valid persons forbidden_assignments a f1 f2 (by omega) hp hfam

/-- Witness of C11: the registry of scenario C, where A1 forbids B1, the only
person outside the family of A1. -/
theorem scenarioC_no_valid_assignment_witness :
    "B1" ∈ map_get_or_default scenarioC_forbidden "A1" [] ∧
    is_valid scenarioC_persons scenarioC_forbidden scenarioC_candidate = some false :=
  ⟨by decide, scenarioC_no_valid_assignment scenarioC_persons scenarioC_forbidden
    scenarioC_candidate 0 1 (by decide) (by decide) (by decide) (by decide)⟩

/-- C18 (family capacity). For a registry of `int` participations, when `is_valid`
returns true the participation counts of the members of any family `F` sum to at
most the number of distinct family ids of the registry other than `F`; hence
`is_valid` returns true on no candidate when some family has more giving slots
than there are other families. -/
theorem is_valid_family_capacity (persons : person_map)
    (forbidden_assignments a : assignments)
    (hint : ∀ e ∈ persons, is_int e.2.participation) :
    (is_valid persons forbidden_assignments a = some true →
      ∀ F, family_slots F persons ≤ ((other_families persons F).length : Int)) ∧
    ((∃ F, ((other_families persons F).length : Int) < family_slots F persons) →
      is_valid persons forbidden_assignments a ≠ some true) := by
  refine ⟨fun h F => family_capacity persons forbidden_assignments a hint h F, ?_⟩
  rintro ⟨F, hF⟩ h
  have := family_capacity persons forbidden_assignments a hint h F
  omega

/-- Witness of C18: family 0 of the three-family registry has two slots and two
other families; family 0 of scenario A has two slots and one other family. -/
theorem is_valid_family_capacity_witness :
    family_slots 0 threeFamilies_persons
      ≤ ((other_families threeFamilies_persons 0).length : Int) ∧
    is_valid scenarioA_persons [] scenarioA_assignment ≠ some true :=
  ⟨(is_valid_family_capacity threeFamilies_persons [] threeFamilies_assignment
      (by decide)).1 (by decide) 0,
    (is_valid_family_capacity scenarioA_persons [] scenarioA_assignment
      (by decide)).2 ⟨0, by decide⟩⟩

/-! ## The generator: the slots it pushes and pops -/

theorem push_slots_eq (name : String) (count : Nat) :
    ∀ targets, push_slots name count targets = targets ++ List.replicate count name := by
  induction count with
  | zero => intro targets; simp [push_slots]
  | succ n ih =>
    intro targets
    simp only [push_slots, ih, List.append_assoc, List.replicate_succ]
    rfl

theorem map_find_of_key {β : Type} (m : List (String × β)) (k : String)
    (h : ∃ e ∈ m, e.1 = k) : ∃ v, map_find m k = some v := by
  induction m with
  | nil =>
    obtain ⟨e, he, _⟩ := h
    simp at he
  | cons x rest ih =>
    obtain ⟨k0, v0⟩ := x
    by_cases hk : k0 = k
    · exact ⟨v0, by simp [map_find, hk]⟩
    · obtain ⟨e, he, hek⟩ := h
      rcases List.mem_cons.mp he with rfl | he'
      · exact absurd hek hk
      · obtain ⟨v, hv⟩ := ih ⟨e, he', hek⟩
        exact ⟨v, by simp [map_find, hk, hv]⟩

theorem mem_fill_targets (entries : List (String × person)) :
    ∀ targets x, x ∈ fill_targets entries targets → x ∈ targets ∨ ∃ e ∈ entries, e.1 = x := by
  induction entries with
  | nil => intro targets x hx; exact Or.inl hx
  | cons e rest ih =>
    obtain ⟨name, p⟩ := e
    intro targets x hx
    simp only [fill_targets, push_slots_eq] at hx
    rcases ih _ x hx with h | ⟨e, he, hek⟩
    · rcases List.mem_append.mp h with h | h
      · exact Or.inl h
      · exact Or.inr ⟨(name, p), List.mem_cons_self _ _, (List.eq_of_mem_replicate h).symm⟩
    · exact Or.inr ⟨e, List.mem_cons_of_mem _ he, hek⟩

theorem fill_targets_count (entries : List (String × person)) :
    ∀ targets x, map_wf entries →
      (fill_targets entries targets).count x = targets.count x +
        (match map_find entries x with
         | some p => p.participation.toNat
         | none => 0) := by
  induction entries with
  | nil => intro targets x _; simp [fill_targets, map_find]
  | cons e rest ih =>
    obtain ⟨name, p⟩ := e
    intro targets x hwf
    simp only [fill_targets, push_slots_eq, ih _ x (map_wf_tail _ _ hwf), List.count_append,
      List.count_replicate, map_find]
    by_cases hx : name = x
    · have hnone : map_find rest x = none :=
        map_find_eq_none rest x (fun e he => hx ▸ map_wf_head_fresh name p rest hwf e he)
      simp [hx, hnone]
    · have hx' : ¬ (x = name) := fun h => hx h.symm
      simp [hx, hx']

theorem assign_targets_counts (entries : List (String × person)) :
    ∀ (a : assignments) (targets : List String), slot_count entries ≤ targets.length →
      map_wf entries → map_wf a → sets_wf a → (∀ e ∈ entries, map_find a e.1 = none) →
      ∀ a' targets', assign_targets entries (a, targets) = some (a', targets') →
      (∀ g pg, (g, pg) ∈ entries →
        (map_get_or_default a' g []).length = pg.participation.toNat) →
      ∀ x, targets.count x = targets'.count x +
        (entries.filter (fun e => decide (x ∈ map_get_or_default a' e.1 []))).length := by
  induction entries with
  | nil =>
    intro a targets _ _ _ _ _ a' targets' hrun _ x
    simp only [assign_targets, Option.some.injEq, Prod.mk.injEq] at hrun
    simp [hrun.2]
  | cons e rest ih =>
    obtain ⟨name, p⟩ := e
    intro a targets hcount hkeys hwf hsets hfresh a' targets' hrun hfull x
    simp only [slot_count] at hcount
    have hrest_ne := map_wf_head_fresh name p rest hkeys
    have hsplit : targets = targets.take (targets.length - p.participation.toNat)
        ++ targets.drop (targets.length - p.participation.toNat) :=
      (List.take_append_drop _ _).symm
    have hseg : (targets.drop (targets.length - p.participation.toNat)).length
        = p.participation.toNat := by
      rw [List.length_drop]
      omega
    have hpre : (targets.take (targets.length - p.participation.toNat)).length
        = targets.length - p.participation.toNat := by
      rw [List.length_take]
      omega
    obtain ⟨a1, hrun1, hwf1, hsets1, hother1, _, hmem1⟩ :=
      pop_slots_spec name p.participation.toNat a _ _ hseg hwf hsets
    rw [← hsplit] at hrun1
    have hfresh1 : ∀ e ∈ rest, map_find a1 e.1 = none := by
      intro e he
      rw [hother1 e.1 (hrest_ne e he)]
      exact hfresh e (List.mem_cons_of_mem _ he)
    have hrun' : assign_targets rest
        (a1, targets.take (targets.length - p.participation.toNat)) = some (a', targets') := by
      simpa only [assign_targets, hrun1] using hrun
    obtain ⟨a2, t2, hrun2, _, _, _, hother2, _⟩ :=
      assign_targets_spec rest a1 (targets.take (targets.length - p.participation.toNat))
        (by rw [hpre]; omega) (map_wf_tail _ _ hkeys) hwf1 hsets1 hfresh1
    rw [hrun'] at hrun2
    simp only [Option.some.injEq, Prod.mk.injEq] at hrun2
    obtain ⟨rfl, rfl⟩ := hrun2
    have hsame : map_get_or_default a' name [] = map_get_or_default a1 name [] := by
      simp only [map_get_or_default, hother2 name hrest_ne]
    have hnil : map_get_or_default a name [] = [] :=
      get_or_default_of_find_none a name [] (hfresh (name, p) (List.mem_cons_self _ _))
    have hmem : ∀ y, y ∈ map_get_or_default a' name [] ↔
        y ∈ targets.drop (targets.length - p.participation.toNat) := by
      intro y
      rw [hsame, hmem1 y, hnil]
      simp
    have hnd : (map_get_or_default a' name []).Nodup := by
      rw [hsame]
      exact sets_wf_nodup a1 hsets1 name
    have hlen : (map_get_or_default a' name []).length = p.participation.toNat :=
      hfull name p (List.mem_cons_self _ _)
    have hpermseg : (map_get_or_default a' name []).Perm
        (targets.drop (targets.length - p.participation.toNat)) :=
      (List.subperm_of_subset hnd (fun y hy => (hmem y).mp hy)).perm_of_length_le
        (by rw [hseg, hlen])
    have hsegcount : (targets.drop (targets.length - p.participation.toNat)).count x
        = if x ∈ map_get_or_default a' name [] then 1 else 0 := by
      rw [← hpermseg.count_eq x]
      split_ifs with hx
      · exact List.count_eq_one_of_mem hnd hx
      · exact List.count_eq_zero_of_not_mem hx
    have hih := ih a1 _ (by rw [hpre]; omega) (map_wf_tail _ _ hkeys) hwf1 hsets1 hfresh1
      a' targets' hrun' (fun g pg hg => hfull g pg (List.mem_cons_of_mem _ hg)) x
    have hcnt : targets.count x
        = (targets.take (targets.length - p.participation.toNat)).count x
          + (targets.drop (targets.length - p.participation.toNat)).count x := by
      rw [← List.count_append, ← hsplit]
    rw [hcnt, hih, hsegcount, List.filter_cons]
    by_cases hx : x ∈ map_get_or_default a' name []
    · simp only [hx, decide_True, if_true, List.length_cons]
      omega
    · simp only [hx, decide_False, if_false]
      simp

theorem generate_run (persons : person_map) (shuffle : List String → List String)
    (hwf : map_wf persons) (hperm : ∀ l, (shuffle l).Perm l) :
    ∃ a, assign_targets persons ([], shuffle (fill_targets persons [])) = some (a, []) ∧
      generate_assignments persons shuffle = some a := by
  obtain ⟨a, targets', hrun, hlen, _⟩ :=
    assign_targets_spec persons [] (shuffle (fill_targets persons []))
      (by rw [(hperm _).length_eq, fill_targets_length]; simp) hwf (by simp [map_wf, set_wf])
      (by intro e he; simp at he) (fun _ _ => rfl)
  have hnil : targets' = [] := by
    rw [(hperm _).length_eq, fill_targets_length] at hlen
    simp only [List.length_nil, Nat.zero_add] at hlen
    exact List.length_eq_zero.mp (by omega)
  subst hnil
  exact ⟨a, hrun, by simp only [generate_assignments, hrun]⟩

/-! ## The claims on the generated candidates -/

/-- C15 (slot exhaustion). For every registry and every shuffle outcome that is a
permutation, `generate_assignments` pushes the name of each person exactly
`max(participation, 0)` times, and its second loop then pops all the slots
without ever applying `back()` to an empty vector: the loop ends with an empty
slot vector and the function returns a candidate. -/
theorem generate_assignments_slot_exhaustion (persons : person_map)
    (shuffle : List String → List String) (hwf : map_wf persons)
    (hperm : ∀ l, (shuffle l).Perm l) :
    (∀ g pg, (g, pg) ∈ persons →
      ((fill_targets persons []).count g : Int) = max pg.participation 0) ∧
    (fill_targets persons []).length = slot_count persons ∧
    (shuffle (fill_targets persons [])).length = slot_count persons ∧
    ∃ a, assign_targets persons ([], shuffle (fill_targets persons [])) = some (a, []) ∧
      generate_assignments persons shuffle = some a := by
  refine ⟨?_, ?_, ?_, generate_run persons shuffle hwf hperm⟩
  · intro g pg hg
    rw [fill_targets_count persons [] g hwf, map_find_of_mem persons hwf g pg hg]
    simp only [List.count_nil, Nat.zero_add]
    exact Int.toNat_eq_max pg.participation
  · rw [fill_targets_length]
    simp
  · rw [(hperm _).length_eq, fill_targets_length]
    simp

/-- Witness of C15 on `twoSlots_persons`, the shuffle reversing the slot vector. -/
theorem generate_assignments_slot_exhaustion_witness :
    (∀ g pg, (g, pg) ∈ twoSlots_persons →
      ((fill_targets twoSlots_persons []).count g : Int) = max pg.participation 0) ∧
    (fill_targets twoSlots_persons []).length = slot_count twoSlots_persons ∧
    (List.reverse (fill_targets twoSlots_persons [])).length = slot_count twoSlots_persons ∧
    ∃ a, assign_targets twoSlots_persons ([], List.reverse (fill_targets twoSlots_persons []))
        = some (a, []) ∧
      generate_assignments twoSlots_persons List.reverse = some a :=
  generate_assignments_slot_exhaustion twoSlots_persons List.reverse (by decide)
    (fun l => List.reverse_perm l)

theorem generated_candidate_closed (persons : person_map)
    (shuffle : List String → List String) (hwf : map_wf persons)
    (hperm : ∀ l, (shuffle l).Perm l) :
    ∃ a, generate_assignments persons shuffle = some a ∧
      (∀ k s, (k, s) ∈ a → (∃ p, map_find persons k = some p) ∧
        ∀ r ∈ s, ∃ p, map_find persons r = some p) ∧
      ∀ fb, is_valid persons fb a ≠ none := by
  obtain ⟨a, hgen, hwfa, _, hkeys, hall⟩ :=
    generate_assignments_spec persons shuffle hwf (hperm _).length_eq
  have hrecipient : ∀ g pg, (g, pg) ∈ persons → ∀ r ∈ map_get_or_default a g [],
      ∃ p, map_find persons r = some p := by
    intro g pg hg r hr
    have h1 := (hall g pg hg).2.2 r hr
    have h2 := (hperm _).mem_iff.mp h1
    rcases mem_fill_targets persons [] r h2 with h3 | h3
    · simp at h3
    · exact map_find_of_key persons r h3
  refine ⟨a, hgen, ?_, ?_⟩
  · intro k s hks
    have hfind : map_find a k = some s := map_find_of_mem a hwfa k s hks
    have hkey : ∃ e ∈ persons, e.1 = k := by
      by_contra hno
      have := hkeys k (fun e he hek => hno ⟨e, he, hek⟩)
      rw [hfind] at this
      exact absurd this (by simp)
    obtain ⟨⟨g, pg⟩, he, hek⟩ := hkey
    simp only at hek
    subst hek
    refine ⟨map_find_of_key persons g ⟨(g, pg), he, rfl⟩, ?_⟩
    intro r hr
    have hs : map_get_or_default a g [] = s := by simp [map_get_or_default, hfind]
    exact hrecipient g pg he r (by rw [hs]; exact hr)
  · intro fb
    rw [is_valid_eq_in_order]
    apply is_valid_in_order_defined
    intro g pg hg r hr
    obtain ⟨p, hp⟩ := hrecipient g pg hg r hr
    rw [hp]
    simp

/-- C16 (referential integrity of generated candidates). For every registry and
every shuffle outcome that is a permutation, `generate_assignments` returns a
candidate whose keys and recipient names are all keys of the registry, so
`is_valid` never dereferences `persons.end()` on it: it returns a boolean. -/
theorem generate_assignments_referential_integrity (persons : person_map)
    (shuffle : List String → List String) (hwf : map_wf persons)
    (hperm : ∀ l, (shuffle l).Perm l) :
    ∃ a, generate_assignments persons shuffle = some a ∧
      (∀ k s, (k, s) ∈ a → (∃ p, map_find persons k = some p) ∧
        ∀ r ∈ s, ∃ p, map_find persons r = some p) ∧
      ∀ fb, is_valid persons fb a ≠ none :=
  generated_candidate_closed persons shuffle hwf hperm

/-- Witness of C16 on the three-family registry, the shuffle reversing the slot
vector. -/
theorem generate_assignments_referential_integrity_witness :
    ∃ a, generate_assignments threeFamilies_persons List.reverse = some a ∧
      (∀ k s, (k, s) ∈ a → (∃ p, map_find threeFamilies_persons k = some p) ∧
        ∀ r ∈ s, ∃ p, map_find threeFamilies_persons r = some p) ∧
      ∀ fb, is_valid threeFamilies_persons fb a ≠ none :=
  generate_assignments_referential_integrity threeFamilies_persons List.reverse (by decide)
    (fun l => List.reverse_perm l)

/-- C17 (receive-count balance). For a registry of `int` participations and a
shuffle outcome that is a permutation, when the candidate built by
`generate_assignments` passes `is_valid`, every person `x` of the registry is a
recipient of exactly `x.participation` givers of the registry. -/
theorem receive_count_balance (persons : person_map) (forbidden_assignments : assignments)
    (shuffle : List String → List String) (a : assignments) (hwf : map_wf persons)
    (hint : ∀ e ∈ persons, is_int e.2.participation)
    (hperm : ∀ l, (shuffle l).Perm l)
    (hgen : generate_assignments persons shuffle = some a)
    (hvalid : is_valid persons forbidden_assignments a = some true) :
    ∀ x px, (x, px) ∈ persons → (receive_count persons a x : Int) = px.participation := by
  intro x px hx
  obtain ⟨a1, hgen1, _, _, _, hall⟩ :=
    generate_assignments_spec persons shuffle hwf (hperm _).length_eq
  obtain ⟨a2, hrun, hgen2⟩ := generate_run persons shuffle hwf hperm
  rw [hgen] at hgen1 hgen2
  simp only [Option.some.injEq] at hgen1 hgen2
  subst hgen1
  subst hgen2
  have hsizes : ∀ g pg, (g, pg) ∈ persons →
      (map_get_or_default a g []).length = pg.participation.toNat ∧ 0 ≤ pg.participation := by
    intro g pg hg
    have h1 := (valid_entry_facts persons forbidden_assignments a hvalid g pg hg).1
    have h2 := (hall g pg hg).1
    have h3 := hint (g, pg) hg
    unfold is_int at h3
    unfold int_to_size_t at h1
    simp only at h3
    omega
  have hcounts := assign_targets_counts persons [] (shuffle (fill_targets persons []))
    (by rw [(hperm _).length_eq, fill_targets_length]; simp) hwf (by simp [map_wf, set_wf])
    (by intro e he; simp at he) (fun _ _ => rfl) a [] hrun
    (fun g pg hg => (hsizes g pg hg).1) x
  rw [(hperm _).count_eq x, fill_targets_count persons [] x hwf,
    map_find_of_mem persons hwf x px hx] at hcounts
  simp only [List.count_nil, Nat.zero_add] at hcounts
  have hpos := Int.toNat_of_nonneg (hsizes x px hx).2
  unfold receive_count
  rw [← hcounts]
  exact hpos

theorem threeFamilies_draws_perm (k : Nat) (l : List String) :
    (threeFamilies_draws k l).Perm l := by
  unfold threeFamilies_draws
  split
  · exact List.Perm.refl _
  · rw [List.perm_iff_count]
    intro x
    simp only [List.count_cons, List.count_nil]
    omega
  · exact List.Perm.refl _

/-- Witness of C17: the second shuffle outcome of `threeFamilies_draws` builds the
accepted assignment of the three-family registry, in which A1 receives one gift. -/
theorem receive_count_balance_witness :
    generate_assignments threeFamilies_persons (threeFamilies_draws 1)
      = some threeFamilies_assignment ∧
    (receive_count threeFamilies_persons threeFamilies_assignment "A1" : Int) = 1 :=
  ⟨by decide, receive_count_balance threeFamilies_persons [] (threeFamilies_draws 1)
    threeFamilies_assignment (by decide) (by decide)
    (threeFamilies_draws_perm 1) (by decide) (by decide) "A1" ⟨"A1", 1, 0⟩ (by decide)⟩

/-! ## The loader: the registry it builds -/

theorem map_find_assign {β : Type} (m : List (String × β)) (key : String) (value : β)
    (k' : String) :
    map_find (map_assign m key value) k' = if key = k' then some value else map_find m k' := by
  induction m with
  | nil => simp [map_assign, map_find]
  | cons e rest ih =>
    obtain ⟨k, v⟩ := e
    simp only [map_assign]
    by_cases h1 : k = key
    · subst h1
      rw [if_pos rfl]
      simp only [map_find]
      by_cases h3 : k = k'
      · rw [if_pos h3, if_pos h3]
      · rw [if_neg h3, if_neg h3, if_neg h3]
    · rw [if_neg h1]
      by_cases h2 : string_less key k = true
      · rw [if_pos h2]
        simp only [map_find]
      · rw [if_neg h2]
        simp only [map_find, ih]
        by_cases h3 : key = k'
        · subst h3
          rw [if_neg h1, if_pos rfl, if_pos rfl]
        · rw [if_neg h3, if_neg h3]

theorem map_assign_keys {β : Type} (m : List (String × β)) (key : String) (value : β) :
    (map_assign m key value).map Prod.fst = set_insert (m.map Prod.fst) key := by
  induction m with
  | nil => simp [map_assign, set_insert]
  | cons e rest ih =>
    obtain ⟨k, s⟩ := e
    simp only [map_assign, List.map_cons, set_insert]
    split_ifs <;> simp [ih]

theorem map_assign_wf {β : Type} (m : List (String × β)) (key : String) (value : β)
    (h : map_wf m) : map_wf (map_assign m key value) := by
  unfold map_wf
  rw [map_assign_keys]
  exact set_insert_wf _ _ h

theorem apply_writes_find (writes : List (String × person)) :
    ∀ (persons : person_map) (name : String),
      map_find (apply_writes writes persons) name =
        match last_record writes name with
        | some p => some p
        | none => map_find persons name := by
  induction writes with
  | nil => intro persons name; simp [apply_writes, last_record]
  | cons w rest ih =>
    obtain ⟨k, p⟩ := w
    intro persons name
    have := ih (map_assign persons k p) name
    simp only [apply_writes, List.foldl_cons] at this ⊢
    rw [this, map_find_assign]
    simp only [last_record]
    cases last_record rest name with
    | some q => rfl
    | none =>
      split_ifs <;> rfl

theorem apply_writes_wf (writes : List (String × person)) :
    ∀ persons : person_map, map_wf persons → map_wf (apply_writes writes persons) := by
  induction writes with
  | nil => intro persons h; exact h
  | cons w rest ih =>
    intro persons h
    simp only [apply_writes, List.foldl_cons]
    exact ih _ (map_assign_wf persons w.1 w.2 h)

theorem apply_writes_append (w₁ w₂ : List (String × person)) (persons : person_map) :
    apply_writes (w₁ ++ w₂) persons = apply_writes w₂ (apply_writes w₁ persons) := by
  simp [apply_writes, List.foldl_append]

theorem add_family_persons_eq (familyId : family_id) (nodes : List person_node) :
    ∀ persons, add_family_persons familyId nodes persons
      = apply_writes (nodes.map (fun node => (node.1, node_person familyId node))) persons := by
  induction nodes with
  | nil => intro persons; rfl
  | cons node rest ih =>
    intro persons
    simp only [add_family_persons, ih, List.map_cons, apply_writes, List.foldl_cons]

theorem add_persons_from_file_eq (tree : List family_node) :
    ∀ state : assigner_state, state.next_family_id + tree.length ≤ INT_MAX →
      add_persons_from_file tree state
        = some ⟨state.next_family_id + tree.length,
            apply_writes (loaded_records tree state.next_family_id) state.persons⟩ := by
  induction tree with
  | nil =>
    intro state _
    simp [add_persons_from_file, loaded_records, apply_writes]
  | cons g rest ih =>
    intro state h
    simp only [List.length_cons, Nat.cast_add, Nat.cast_one] at h
    have hne : state.next_family_id ≠ INT_MAX := by
      intro e
      unfold INT_MAX family_id at *
      omega
    simp only [add_persons_from_file, hne, if_false]
    rw [ih _ (by unfold INT_MAX family_id at *; simp only; omega)]
    simp only [loaded_records, apply_writes_append, add_family_persons_eq, List.length_cons,
      Nat.cast_add, Nat.cast_one, Option.some.injEq, assigner_state.mk.injEq, and_true]
    unfold family_id
    omega

theorem loaded_records_append (t₁ : List family_node) :
    ∀ (t₂ : List family_node) (next : family_id),
      loaded_records (t₁ ++ t₂) next
        = loaded_records t₁ next ++ loaded_records t₂ (next + t₁.length) := by
  induction t₁ with
  | nil =>
    intro t₂ next
    have e : next + ((([] : List family_node).length : Nat) : Int) = next := by
      simp
    rw [e]
    rfl
  | cons g t ih =>
    intro t₂ next
    have e : next + (((g :: t).length : Nat) : Int) = next + 1 + (t.length : Int) := by
      simp only [List.length_cons, Nat.cast_add, Nat.cast_one]
      unfold family_id at *
      omega
    rw [e, List.cons_append]
    simp only [loaded_records]
    rw [ih t₂ (next + 1), List.append_assoc]

theorem add_persons_from_files_eq (files : List (List family_node)) :
    ∀ state : assigner_state, state.next_family_id + files.flatten.length ≤ INT_MAX →
      add_persons_from_files files state
        = some ⟨state.next_family_id + files.flatten.length,
            apply_writes (loaded_records files.flatten state.next_family_id) state.persons⟩ := by
  induction files with
  | nil =>
    intro state _
    simp [add_persons_from_files, loaded_records, apply_writes]
  | cons tree rest ih =>
    intro state h
    simp only [List.flatten_cons, List.length_append, Nat.cast_add] at h
    have h1 := add_persons_from_file_eq tree state
      (by unfold INT_MAX family_id at *; omega)
    simp only [add_persons_from_files, h1]
    rw [ih _ (by unfold INT_MAX family_id at *; simp only; omega)]
    simp only [List.flatten_cons, loaded_records_append, apply_writes_append,
      List.length_append, Nat.cast_add, Option.some.injEq, assigner_state.mk.injEq, and_true]
    unfold family_id
    omega

theorem last_record_none (writes : List (String × person)) (name : String)
    (h : name ∉ writes.map Prod.fst) : last_record writes name = none := by
  induction writes with
  | nil => rfl
  | cons w rest ih =>
    obtain ⟨k, p⟩ := w
    simp only [List.map_cons, List.mem_cons, not_or] at h
    simp only [last_record, ih h.2]
    rw [if_neg (fun e => h.1 e.symm)]

theorem last_record_none_iff_aux (writes : List (String × person)) (name : String)
    (h : last_record writes name = none) : name ∉ writes.map Prod.fst := by
  induction writes with
  | nil => simp
  | cons w rest ih =>
    obtain ⟨k, p⟩ := w
    simp only [last_record] at h
    cases hl : last_record rest name with
    | some r =>
      rw [hl] at h
      simp at h
    | none =>
      rw [hl] at h
      simp only at h
      split_ifs at h with hk
      simp only [List.map_cons, List.mem_cons, not_or]
      exact ⟨fun e => hk e.symm, ih hl⟩

theorem last_record_of_nodup (writes : List (String × person)) (name : String) (p : person)
    (hnd : (writes.map Prod.fst).Nodup) (h : (name, p) ∈ writes) :
    last_record writes name = some p := by
  induction writes with
  | nil => simp at h
  | cons w rest ih =>
    obtain ⟨k, q⟩ := w
    simp only [List.map_cons, List.nodup_cons] at hnd
    rcases List.mem_cons.mp h with hh | hh
    · obtain ⟨rfl, rfl⟩ := Prod.mk.inj hh
      simp [last_record, last_record_none rest name hnd.1]
    · simp only [last_record, ih hnd.2 hh]

theorem last_record_some_mem (writes : List (String × person)) (name : String) (p : person)
    (h : last_record writes name = some p) : (name, p) ∈ writes := by
  induction writes with
  | nil => simp [last_record] at h
  | cons w rest ih =>
    obtain ⟨k, q⟩ := w
    simp only [last_record] at h
    cases hl : last_record rest name with
    | some r =>
      rw [hl] at h
      simp only [Option.some.injEq] at h
      subst h
      exact List.mem_cons_of_mem _ (ih hl)
    | none =>
      rw [hl] at h
      simp only at h
      split_ifs at h with hk
      simp only [Option.some.injEq] at h
      subst hk
      subst h
      exact List.mem_cons_self _ _

theorem loaded_records_keys (groups : List family_node) :
    ∀ next : family_id,
      (loaded_records groups next).map Prod.fst = groups.flatten.map Prod.fst := by
  induction groups with
  | nil => intro next; rfl
  | cons g rest ih =>
    intro next
    simp only [loaded_records, List.map_append, List.map_map, ih, List.flatten_cons]
    rfl

theorem mem_loaded_records (groups : List family_node) :
    ∀ (next : family_id) (k : Nat) (group : family_node) (node : person_node),
      groups[k]? = some group → node ∈ group →
      (node.1, node_person (next + (k : Int)) node) ∈ loaded_records groups next := by
  induction groups with
  | nil => intro next k group node hk _; simp at hk
  | cons g rest ih =>
    intro next k group node hk hnode
    simp only [loaded_records, List.mem_append]
    cases k with
    | zero =>
      simp only [List.getElem?_cons_zero, Option.some.injEq] at hk
      subst hk
      left
      have e : next + ((0 : Nat) : Int) = next := by simp
      rw [e]
      exact List.mem_map.mpr ⟨node, hnode, rfl⟩
    | succ k' =>
      simp only [List.getElem?_cons_succ] at hk
      right
      have e : next + ((k' + 1 : Nat) : Int) = next + 1 + (k' : Int) := by
        simp only [Nat.cast_add, Nat.cast_one]
        unfold family_id at *
        omega
      rw [e]
      exact ih (next + 1) k' group node hk hnode

theorem loaded_registry (files : List (List family_node))
    (hcount : (files.flatten.length : Int) ≤ INT_MAX) :
    add_persons_from_files files fresh_assigner
      = some ⟨(files.flatten.length : Int),
          apply_writes (loaded_records files.flatten base_family_id) []⟩ := by
  have h := add_persons_from_files_eq files fresh_assigner
    (by simpa [fresh_assigner, base_family_id] using hcount)
  simpa [fresh_assigner, base_family_id] using h

/-! ## The claims on the loader -/

/-- C19 (sequential family ids). When the family groups of the person files have
pairwise distinct person names and are loaded in order into a fresh assigner,
fewer than `2 ^ 31` groups in all, every person of the group with index `k` is
stored with family id `k` (ids start at `base_family_id = 0` and continue across
files), so two loaded persons have the same family id exactly when they were
loaded in the same group. -/
theorem sequential_family_ids (files : List (List family_node))
    (hdistinct : (files.flatten.flatten.map Prod.fst).Nodup)
    (hcount : (files.flatten.length : Int) ≤ INT_MAX) :
    ∃ state, add_persons_from_files files fresh_assigner = some state ∧
      state.next_family_id = (files.flatten.length : Int) ∧
      (∀ (k : Nat) (group : family_node) (node : person_node),
        files.flatten[k]? = some group → node ∈ group →
        map_find state.persons node.1 = some ⟨node.1, node.2.getD 1, (k : Int)⟩) ∧
      (∀ (i j : Nat) (gi gj : family_node) (x y : person_node) (px py : person),
        files.flatten[i]? = some gi → files.flatten[j]? = some gj → x ∈ gi → y ∈ gj →
        map_find state.persons x.1 = some px → map_find state.persons y.1 = some py →
        (px.family = py.family ↔ i = j)) := by
  have hstored : ∀ (k : Nat) (group : family_node) (node : person_node),
      files.flatten[k]? = some group → node ∈ group →
      map_find (apply_writes (loaded_records files.flatten base_family_id) []) node.1
        = some ⟨node.1, node.2.getD 1, (k : Int)⟩ := by
    intro k group node hk hnode
    have hmem := mem_loaded_records files.flatten base_family_id k group node hk hnode
    have hlast := last_record_of_nodup _ _ _
      (by rw [loaded_records_keys]; exact hdistinct) hmem
    rw [apply_writes_find, hlast]
    simp [node_person, base_family_id]
  refine ⟨_, loaded_registry files hcount, rfl, hstored, ?_⟩
  intro i j gi gj x y px py hi hj hx hy hpx hpy
  have h1 := hstored i gi x hi hx
  have h2 := hstored j gj y hj hy
  simp only at hpx hpy
  rw [hpx] at h1
  rw [hpy] at h2
  simp only [Option.some.injEq] at h1 h2
  subst h1
  subst h2
  simp only
  unfold family_id
  omega

/-- Witness of C19: two files of three family groups with distinct names. -/
theorem sequential_family_ids_witness :
    ∃ state, add_persons_from_files distinct_files fresh_assigner = some state ∧
      state.next_family_id = (distinct_files.flatten.length : Int) ∧
      (∀ (k : Nat) (group : family_node) (node : person_node),
        distinct_files.flatten[k]? = some group → node ∈ group →
        map_find state.persons node.1 = some ⟨node.1, node.2.getD 1, (k : Int)⟩) ∧
      (∀ (i j : Nat) (gi gj : family_node) (x y : person_node) (px py : person),
        distinct_files.flatten[i]? = some gi → distinct_files.flatten[j]? = some gj →
        x ∈ gi → y ∈ gj →
        map_find state.persons x.1 = some px → map_find state.persons y.1 = some py →
        (px.family = py.family ↔ i = j)) :=
  sequential_family_ids distinct_files (by decide) (by decide)

/-- C20 (last write wins). When person files of fewer than `2 ^ 31` family groups
in all are loaded into a fresh assigner, the registry is a map with one record
for each loaded name, and the record stored for a name is the one of its last
occurrence in load order: the participation of that person node and the family id
of its group.  The record of a name depends on the occurrences of that name only. -/
theorem last_write_wins (files : List (List family_node))
    (hcount : (files.flatten.length : Int) ≤ INT_MAX) :
    ∃ state, add_persons_from_files files fresh_assigner = some state ∧
      map_wf state.persons ∧
      (∀ name, map_find state.persons name
        = last_record (loaded_records files.flatten base_family_id) name) ∧
      (∀ name, name ∈ files.flatten.flatten.map Prod.fst →
        (state.persons.map Prod.fst).count name = 1) := by
  have hwf : map_wf (apply_writes (loaded_records files.flatten base_family_id) []) :=
    apply_writes_wf _ [] (by simp [map_wf, set_wf])
  have hfind : ∀ name,
      map_find (apply_writes (loaded_records files.flatten base_family_id) []) name
        = last_record (loaded_records files.flatten base_family_id) name := by
    intro name
    rw [apply_writes_find]
    cases last_record (loaded_records files.flatten base_family_id) name <;> rfl
  refine ⟨_, loaded_registry files hcount, hwf, hfind, ?_⟩
  intro name hname
  simp only
  apply List.count_eq_one_of_mem (set_wf_nodup hwf)
  cases hl : last_record (loaded_records files.flatten base_family_id) name with
  | none =>
    have hkeys : name ∈ (loaded_records files.flatten base_family_id).map Prod.fst := by
      rw [loaded_records_keys]
      exact hname
    obtain ⟨w, hw, hwk⟩ := List.mem_map.mp hkeys
    obtain ⟨v, hv⟩ := map_find_of_key
      (apply_writes (loaded_records files.flatten base_family_id) []) name
      (by
        by_contra hno
        have hnone := map_find_eq_none _ name (fun e he hek => hno ⟨e, he, hek⟩)
        rw [hfind, hl] at hnone
        exact absurd (last_record_none_iff_aux (loaded_records files.flatten base_family_id)
          name hl) (not_not.mpr hkeys))
    exact List.mem_map.mpr ⟨(name, v), map_find_some_mem _ _ _ hv, rfl⟩
  | some p =>
    have hv := hfind name
    rw [hl] at hv
    exact List.mem_map.mpr ⟨(name, p), map_find_some_mem _ _ _ hv, rfl⟩

/-- Witness of C20: A occurs in group 0 without `p` and again in group 2 with
`p = 3`; the record of the last occurrence is the one stored. -/
theorem last_write_wins_witness :
    (∃ state, add_persons_from_files duplicate_files fresh_assigner = some state ∧
      map_wf state.persons ∧
      (∀ name, map_find state.persons name
        = last_record (loaded_records duplicate_files.flatten base_family_id) name) ∧
      (∀ name, name ∈ duplicate_files.flatten.flatten.map Prod.fst →
        (state.persons.map Prod.fst).count name = 1)) ∧
    last_record (loaded_records duplicate_files.flatten base_family_id) "A"
      = some ⟨"A", 3, 2⟩ ∧
    last_record (loaded_records duplicate_files.flatten base_family_id) "B"
      = some ⟨"B", 2, 0⟩ :=
  ⟨last_write_wins duplicate_files (by decide), by decide, by decide⟩

/-! ## The generator: the slots popped for each giver -/

theorem popped_for_skip (g name : String) (p : person) (rest : List (String × person))
    (targets : List String) (h : name ≠ g) :
    popped_for g ((name, p) :: rest) targets
      = popped_for g rest (targets.take (targets.length - p.participation.toNat)) := by
  simp only [popped_for, if_neg h]

theorem popped_for_head (name : String) (p : person) (rest : List (String × person))
    (targets : List String) :
    popped_for name ((name, p) :: rest) targets
      = targets.drop (targets.length - p.participation.toNat) := by
  simp [popped_for]

theorem assign_targets_members (entries : List (String × person)) :
    ∀ (a : assignments) (targets : List String), slot_count entries ≤ targets.length →
      map_wf entries → map_wf a → sets_wf a → (∀ e ∈ entries, map_find a e.1 = none) →
      ∀ a' targets', assign_targets entries (a, targets) = some (a', targets') →
      ∀ g pg, (g, pg) ∈ entries →
        (∀ x, x ∈ map_get_or_default a' g [] ↔ x ∈ popped_for g entries targets) ∧
        (popped_for g entries targets).length = pg.participation.toNat := by
  induction entries with
  | nil =>
    intro a targets _ _ _ _ _ a' targets' _ g pg hg
    simp at hg
  | cons e rest ih =>
    obtain ⟨name, p⟩ := e
    intro a targets hcount hkeys hwf hsets hfresh a' targets' hrun g pg hg
    simp only [slot_count] at hcount
    have hrest_ne := map_wf_head_fresh name p rest hkeys
    have hsplit : targets = targets.take (targets.length - p.participation.toNat)
        ++ targets.drop (targets.length - p.participation.toNat) :=
      (List.take_append_drop _ _).symm
    have hseg : (targets.drop (targets.length - p.participation.toNat)).length
        = p.participation.toNat := by
      rw [List.length_drop]
      omega
    have hpre : (targets.take (targets.length - p.participation.toNat)).length
        = targets.length - p.participation.toNat := by
      rw [List.length_take]
      omega
    obtain ⟨a1, hrun1, hwf1, hsets1, hother1, _, hmem1⟩ :=
      pop_slots_spec name p.participation.toNat a _ _ hseg hwf hsets
    rw [← hsplit] at hrun1
    have hfresh1 : ∀ e ∈ rest, map_find a1 e.1 = none := by
      intro e he
      rw [hother1 e.1 (hrest_ne e he)]
      exact hfresh e (List.mem_cons_of_mem _ he)
    have hrun' : assign_targets rest
        (a1, targets.take (targets.length - p.participation.toNat)) = some (a', targets') := by
      simpa only [assign_targets, hrun1] using hrun
    rcases List.mem_cons.mp hg with hh | hh
    · obtain ⟨rfl, rfl⟩ := Prod.mk.inj hh
      obtain ⟨a2, t2, hrun2, _, _, _, hother2, _⟩ :=
        assign_targets_spec rest a1 (targets.take (targets.length - pg.participation.toNat))
          (by rw [hpre]; omega) (map_wf_tail _ _ hkeys) hwf1 hsets1 hfresh1
      rw [hrun'] at hrun2
      simp only [Option.some.injEq, Prod.mk.injEq] at hrun2
      obtain ⟨rfl, rfl⟩ := hrun2
      have hsame : map_get_or_default a' g [] = map_get_or_default a1 g [] := by
        simp only [map_get_or_default, hother2 g hrest_ne]
      have hnil : map_get_or_default a g [] = [] :=
        get_or_default_of_find_none a g [] (hfresh (g, pg) (List.mem_cons_self _ _))
      rw [popped_for_head]
      refine ⟨?_, hseg⟩
      intro x
      rw [hsame, hmem1 x, hnil]
      simp
    · have hne : name ≠ g := fun e => hrest_ne (g, pg) hh e.symm
      rw [popped_for_skip g name p rest targets hne]
      exact ih a1 _ (by rw [hpre]; omega) (map_wf_tail _ _ hkeys) hwf1 hsets1 hfresh1
        a' targets' hrun' g pg hh

theorem popped_partition (entries : List (String × person)) :
    ∀ targets : List String, slot_count entries = targets.length → map_wf entries →
      (entries.reverse.map (fun e => popped_for e.1 entries targets)).flatten = targets := by
  induction entries with
  | nil =>
    intro targets hlen _
    simp only [slot_count] at hlen
    simp [List.length_eq_zero.mp hlen.symm]
  | cons e rest ih =>
    obtain ⟨name, p⟩ := e
    intro targets hlen hkeys
    simp only [slot_count] at hlen
    have hrest_ne := map_wf_head_fresh name p rest hkeys
    have hpre : (targets.take (targets.length - p.participation.toNat)).length
        = targets.length - p.participation.toNat := by
      rw [List.length_take]
      omega
    have hmap : rest.reverse.map (fun e => popped_for e.1 ((name, p) :: rest) targets)
        = rest.reverse.map (fun e => popped_for e.1 rest
            (targets.take (targets.length - p.participation.toNat))) := by
      apply List.map_congr_left
      intro e he
      exact popped_for_skip e.1 name p rest targets
        (fun h => hrest_ne e (List.mem_reverse.mp he) h.symm)
    rw [List.reverse_cons, List.map_append, List.flatten_append, hmap,
      ih _ (by rw [hpre]; omega) (map_wf_tail _ _ hkeys)]
    simp only [List.map_cons, List.map_nil, List.flatten_cons, List.flatten_nil,
      List.append_nil, popped_for_head]
    exact List.take_append_drop _ _

theorem set_of_segment (s seg : List String) (hnd : s.Nodup)
    (hmem : ∀ x, x ∈ s ↔ x ∈ seg) :
    s.length ≤ seg.length ∧ (s.length = seg.length ↔ seg.Nodup) := by
  have hsub : s.Subperm seg := List.subperm_of_subset hnd (fun x hx => (hmem x).mp hx)
  refine ⟨hsub.length_le, ?_, ?_⟩
  · intro hlen
    exact (hsub.perm_of_length_le (by omega)).nodup_iff.mp hnd
  · intro hseg
    exact ((List.perm_ext_iff_of_nodup hnd hseg).mpr hmem).length_eq

/-! ## The amended claims on the generator and on missing recipients -/

/-- C7 as amended. For a registry whose participations are all at least 1 and a
shuffle outcome that is a permutation, `generate_assignments` returns a candidate
in which every person with participation `p` is a key whose recipient set is
exactly the set of the names on the `p` slots popped for that person, the slots
popped for the persons making up the whole shuffled vector.  The set has exactly
`p` recipients exactly when these `p` slots carry pairwise distinct names, in
particular when `p = 1`; otherwise equal names collapse and it has fewer, at least
one. -/
theorem generate_assignments_cardinality (persons : person_map)
    (shuffle : List String → List String) (hwf : map_wf persons)
    (hpos : ∀ e ∈ persons, 1 ≤ e.2.participation)
    (hperm : ∀ l, (shuffle l).Perm l) :
    ∃ a, generate_assignments persons shuffle = some a ∧
      (persons.reverse.map
        (fun e => popped_for e.1 persons (shuffle (fill_targets persons [])))).flatten
        = shuffle (fill_targets persons []) ∧
      ∀ g pg, (g, pg) ∈ persons →
        ∃ s, map_find a g = some s ∧ s.Nodup ∧
          ((popped_for g persons (shuffle (fill_targets persons []))).length : Int)
            = pg.participation ∧
          (∀ x, x ∈ s ↔ x ∈ popped_for g persons (shuffle (fill_targets persons []))) ∧
          ((s.length : Int) = pg.participation ↔
            (popped_for g persons (shuffle (fill_targets persons []))).Nodup) ∧
          1 ≤ s.length ∧ (s.length : Int) ≤ pg.participation ∧
          (pg.participation = 1 → s.length = 1) := by
  have hlen : (shuffle (fill_targets persons [])).length = slot_count persons := by
    rw [(hperm _).length_eq, fill_targets_length]
    simp
  obtain ⟨a, hrun, hgen⟩ := generate_run persons shuffle hwf hperm
  obtain ⟨a1, hgen1, _, hsets, _, _⟩ :=
    generate_assignments_spec persons shuffle hwf (hperm _).length_eq
  rw [hgen] at hgen1
  simp only [Option.some.injEq] at hgen1
  subst hgen1
  refine ⟨a, hgen, popped_partition persons _ hlen.symm hwf, ?_⟩
  intro g pg hg
  obtain ⟨hmem, hseglen⟩ := assign_targets_members persons [] (shuffle (fill_targets persons []))
    (by rw [hlen]) hwf (by simp [map_wf, set_wf]) (by intro e he; simp at he)
    (fun _ _ => rfl) a [] hrun g pg hg
  have hp : 1 ≤ pg.participation := hpos (g, pg) hg
  have hcast : ((pg.participation.toNat : Nat) : Int) = pg.participation :=
    Int.toNat_of_nonneg (by omega)
  have hnd : (map_get_or_default a g []).Nodup := sets_wf_nodup a hsets g
  obtain ⟨hle, hiff⟩ := set_of_segment _ _ hnd hmem
  have hne : map_get_or_default a g [] ≠ [] := by
    intro h
    have hpos' : 0 < (popped_for g persons (shuffle (fill_targets persons []))).length := by
      rw [hseglen]
      omega
    obtain ⟨x, hx⟩ := List.exists_mem_of_length_pos hpos'
    have := (hmem x).mpr hx
    rw [h] at this
    simp at this
  have hone : 1 ≤ (map_get_or_default a g []).length :=
    List.length_pos.mpr hne
  refine ⟨map_get_or_default a g [], find_of_get_or_default_ne_nil a g hne, hnd, ?_, hmem,
    ?_, hone, ?_, ?_⟩
  · rw [hseglen]
    exact hcast
  · rw [← hiff, hseglen]
    constructor
    · intro h
      omega
    · intro h
      omega
  · rw [hseglen] at hle
    omega
  · intro h1
    rw [hseglen, h1] at hle
    simp at hle
    omega

/-- Witness of the amended C7 on `twoSlots_persons`, the shuffle reversing the slot
vector. -/
theorem generate_assignments_cardinality_witness :
    ∃ a, generate_assignments twoSlots_persons List.reverse = some a ∧
      (twoSlots_persons.reverse.map
        (fun e => popped_for e.1 twoSlots_persons
          (List.reverse (fill_targets twoSlots_persons [])))).flatten
        = List.reverse (fill_targets twoSlots_persons []) ∧
      ∀ g pg, (g, pg) ∈ twoSlots_persons →
        ∃ s, map_find a g = some s ∧ s.Nodup ∧
          ((popped_for g twoSlots_persons
            (List.reverse (fill_targets twoSlots_persons []))).length : Int)
            = pg.participation ∧
          (∀ x, x ∈ s ↔ x ∈ popped_for g twoSlots_persons
            (List.reverse (fill_targets twoSlots_persons []))) ∧
          ((s.length : Int) = pg.participation ↔
            (popped_for g twoSlots_persons
              (List.reverse (fill_targets twoSlots_persons []))).Nodup) ∧
          1 ≤ s.length ∧ (s.length : Int) ≤ pg.participation ∧
          (pg.participation = 1 → s.length = 1) :=
  generate_assignments_cardinality twoSlots_persons List.reverse (by decide) (by decide)
    (fun l => List.reverse_perm l)

end GiftExchange
